import Mathlib

/-!
# File system with authentication and access control: model and verification

A shallow embedding of `FileSystem.cpp` / `FileSystem.h`.

* `std::string` is the list of its characters (`Str`).
* `std::map<std::string, FileEntry>` is an association list kept in ascending
  key order (`FileStore`); `find`, `assign` (for `fileStore[k] = e`) and `modify`
  (for a write through the iterator returned by `find`) are the map operations
  the program uses.
* The three persistence files are texts. `salt.txt` and `shadow.txt` form the
  `CredStore`; a file that does not exist is `none`.
* `md5` comes from `md5.h`, which is not part of the sources; it is a parameter
  of the functions that call it. The section on the digest function gives MD5
  itself, for the evaluation of the program on concrete inputs.
* `generateSalt` draws from `std::random_device`; the draws are a parameter
  (`dist i` is the value of the `i`-th call `dist(rd)`).
* Console output is not modelled.
-/

namespace FileSystem

/-- A `std::string`. -/
abbrev Str := List Char

/-- The constant `SALT_LENGTH` of FileSystem.h. -/
def SALT_LENGTH : Nat := 8

/-- Smallest value of the C++ type `int`. -/
def INT_MIN : Int := -2147483648

/-- Largest value of the C++ type `int`. -/
def INT_MAX : Int := 2147483647

/-! ## Decimal output and input of integers -/

/-- The character of a decimal digit, `'0' + d`. -/
def digitChar (d : Nat) : Char := Char.ofNat (48 + d)

/-- Decimal digits of `n`, most significant first, in front of `acc`. -/
def natDigitsAux : Nat → Nat → Str → Str
  | 0, _, acc => acc
  | fuel + 1, n, acc =>
    if n / 10 = 0 then digitChar (n % 10) :: acc
    else natDigitsAux fuel (n / 10) (digitChar (n % 10) :: acc)

/-- Decimal representation of a natural number. -/
def natToStr (n : Nat) : Str := natDigitsAux (n + 1) n []

/-- The text produced by `std::to_string(int)` and by `ostream << int`. -/
def to_string (n : Int) : Str :=
  if n < 0 then '-' :: natToStr n.natAbs else natToStr n.natAbs

/-- The test `std::isspace` of the C locale. -/
def isspace (c : Char) : Bool :=
  c = ' ' || c = '\t' || c = '\n' || c = '\x0b' || c = '\x0c' || c = '\r'

/-- The test `std::isdigit`. -/
def isdigit (c : Char) : Bool := decide (48 ≤ c.toNat) && decide (c.toNat ≤ 57)

/-- Value of a run of decimal digits. -/
def digitsVal (ds : Str) : Nat := ds.foldl (fun a c => a * 10 + (c.toNat - 48)) 0

/-- Outcome of `istream >> int`. -/
inductive Extracted where
  /-- The sentry failed (end of input while skipping whitespace): the variable is not written. -/
  | untouched : Extracted
  /-- The extraction failed after the sentry: `failbit` is set and `v` is written
  (`0` when there is no digit, the nearest bound of `int` on overflow). -/
  | failed (v : Int) : Extracted
  /-- The extraction succeeded with value `v`, leaving `rest` unread. -/
  | ok (v : Int) (rest : Str) : Extracted
deriving DecidableEq, Repr

/-- The extraction `istream >> int` from a good stream whose unread characters
are `s`: leading whitespace is skipped, an optional sign and the longest run of
digits are read. -/
def scanInt (s : Str) : Extracted :=
  match s.dropWhile isspace with
  | [] => .untouched
  | c :: r =>
    let body := if c = '-' ∨ c = '+' then r else c :: r
    let ds := body.takeWhile isdigit
    if ds = [] then .failed 0
    else
      let v : Int := if c = '-' then -(digitsVal ds : Int) else (digitsVal ds : Int)
      if v < INT_MIN then .failed INT_MIN
      else if INT_MAX < v then .failed INT_MAX
      else .ok v (body.dropWhile isdigit)

/-- The extraction `istream >> std::string` from a good stream whose unread
characters are `s`: leading whitespace is skipped and the longest run of
non-space characters is read; `none` when the end is reached first. -/
def scanString (s : Str) : Option (Str × Str) :=
  match s.dropWhile isspace with
  | [] => none
  | c :: r => some ((c :: r).takeWhile (fun x => !isspace x), (c :: r).dropWhile (fun x => !isspace x))

/-- The lines that the loop `while (std::getline(file, line))` yields on a file
with the given text: the pieces between newline characters, without a last
empty piece. -/
def getlines : Str → List Str
  | [] => []
  | c :: cs =>
    if c = '\n' then [] :: getlines cs
    else
      match getlines cs with
      | [] => [[c]]
      | l :: ls => (c :: l) :: ls

/-! ## The classified file store -/

/-- The structure `FileEntry` of FileSystem.h. -/
structure FileEntry where
  owner : Str
  classification : Int
  content : Str
deriving DecidableEq, Repr

/-- A `std::map<std::string, FileEntry>`: its entries in ascending key order. -/
abbrev FileStore := List (Str × FileEntry)

/-- Well-formed maps: the keys are strictly ascending. -/
def FileStore.WF (m : FileStore) : Prop := m.Pairwise (fun a b => a.1 < b.1)

instance (m : FileStore) : Decidable m.WF := by
  unfold FileStore.WF
  exact inferInstance

/-- The lookup `fileStore.find(filename)`; `none` stands for `fileStore.end()`. -/
def find (filename : Str) : FileStore → Option FileEntry
  | [] => none
  | (k, e) :: rest => if k = filename then some e else find filename rest

/-- The assignment `fileStore[filename] = e`: the entry is replaced when the key
is present and inserted at its place in key order otherwise. -/
def assign (filename : Str) (e : FileEntry) : FileStore → FileStore
  | [] => [(filename, e)]
  | (k, v) :: rest =>
    if filename < k then (filename, e) :: (k, v) :: rest
    else if k < filename then (k, v) :: assign filename e rest
    else (k, e) :: rest

/-- A write `it->second = f (it->second)` through the iterator `it` returned by
`fileStore.find(filename)`. -/
def modify (filename : Str) (f : FileEntry → FileEntry) : FileStore → FileStore
  | [] => []
  | (k, e) :: rest =>
    if k = filename then (k, f e) :: rest else (k, e) :: modify filename f rest

/-- The function `createFile`: the returned flag and the file store afterwards. -/
def createFile (filename owner : Str) (classification : Int) (fileStore : FileStore) :
    Bool × FileStore :=
  if (find filename fileStore).isSome then (false, fileStore)
  else (true, assign filename ⟨owner, classification, []⟩ fileStore)

/-- The function `appendToFile`: the returned flag and the file store afterwards. -/
def appendToFile (filename content : Str) (userClearance : Int) (fileStore : FileStore) :
    Bool × FileStore :=
  match find filename fileStore with
  | none => (false, fileStore)
  | some e =>
    if userClearance < e.classification then (false, fileStore)
    else (true, modify filename (fun x => { x with content := x.content ++ content }) fileStore)

/-- The message `readFile` returns when the clearance is too low. -/
def accessDeniedMessage (userClearance : Int) : Str :=
  "Access denied: Your clearance level (".toList ++ to_string userClearance ++
    ") is too low to read this file.".toList

/-- The function `readFile`: the returned string. -/
def readFile (filename : Str) (userClearance : Int) (fileStore : FileStore) : Str :=
  match find filename fileStore with
  | none => "File not found.".toList
  | some e =>
    if userClearance < e.classification then accessDeniedMessage userClearance
    else e.content

/-- The function `writeFile`: the returned flag and the file store afterwards. -/
def writeFile (filename content : Str) (userClearance : Int) (fileStore : FileStore) :
    Bool × FileStore :=
  match find filename fileStore with
  | none => (false, fileStore)
  | some e =>
    if userClearance < e.classification then (false, fileStore)
    else (true, modify filename (fun x => { x with content := content }) fileStore)

/-- One call of a mutating operation of the file store, with its arguments. -/
inductive FileOp where
  | create (filename owner : Str) (classification : Int) : FileOp
  | append (filename content : Str) (userClearance : Int) : FileOp
  | write (filename content : Str) (userClearance : Int) : FileOp
deriving DecidableEq, Repr

/-- Runs one operation: the returned flag and the file store afterwards. -/
def FileOp.run : FileOp → FileStore → Bool × FileStore
  | .create filename owner classification, m => createFile filename owner classification m
  | .append filename content userClearance, m => appendToFile filename content userClearance m
  | .write filename content userClearance, m => writeFile filename content userClearance m

/-! ## Persistence of the file store -/

/-- The text that `saveFileStore` writes to `Files.store`. -/
def saveFileStore : FileStore → Str
  | [] => []
  | (filename, e) :: rest =>
    filename ++ [' '] ++ e.owner ++ [' '] ++ to_string e.classification ++ ['\n'] ++
      e.content ++ ['\n'] ++ saveFileStore rest

/-- The loop of `loadFileStore`. `stream` holds the unread characters of the file,
`content` the current value of the local variable `content`; `fuel` bounds the
number of iterations. -/
def loadLoop : Nat → Str → Str → FileStore → FileStore
  | 0, _, _, fileStore => fileStore
  | fuel + 1, stream, content, fileStore =>
    match scanString stream with
    | none => fileStore
    | some (filename, s1) =>
      match scanString s1 with
      | none => fileStore
      | some (owner, s2) =>
        match scanInt s2 with
        | .ok classification [] =>
          -- the number ended the file: `eofbit` is set, so `ignore` and `getline`
          -- do nothing and `content` keeps its value
          loadLoop fuel [] content (assign filename ⟨owner, classification, content⟩ fileStore)
        | .ok classification (_ :: s3) =>
          -- `ignore()` drops one character, `getline` reads up to the next newline
          let line := s3.takeWhile (fun x => x != '\n')
          loadLoop fuel ((s3.dropWhile (fun x => x != '\n')).drop 1) line
            (assign filename ⟨owner, classification, line⟩ fileStore)
        | _ => fileStore

/-- The function `loadFileStore`, given the text of `Files.store` (`none` when
the file cannot be opened) and the map to fill. Every iteration of the loop
reads at least one character, so the fuel never runs out. -/
def loadFileStore (storeFile : Option Str) (fileStore : FileStore) : FileStore :=
  match storeFile with
  | none => fileStore
  | some text => loadLoop (text.length + 1) text [] fileStore

/-! ## The credential store -/

/-- The contents of `salt.txt` and `shadow.txt`; `none` for a file that does not exist. -/
structure CredStore where
  saltFile : Option Str
  shadowFile : Option Str
deriving DecidableEq, Repr

/-- The function `generateSalt`; `dist i` is the digit drawn in iteration `i`. -/
def generateSalt (dist : Nat → Fin 10) : Str :=
  (List.range SALT_LENGTH).foldl (fun salt i => salt ++ to_string ((dist i).val : Int)) []

/-- The test `line.find(username + ":") == 0`. -/
def hasUserPrefix (username line : Str) : Bool := (username ++ [':']).isPrefixOf line

/-- The function `userExists`. -/
def userExists (username : Str) (store : CredStore) : Bool :=
  (getlines (store.saltFile.getD [])).any (hasUserPrefix username)

/-- Writing `text` to a file opened with `std::ios::app`. -/
def appendFile (file : Option Str) (text : Str) : Option Str :=
  some (file.getD [] ++ text)

/-- The function `createUser`: the returned flag and the credential store afterwards. -/
def createUser (md5 : Str → Str) (dist : Nat → Fin 10) (username password : Str)
    (clearance : Int) (store : CredStore) : Bool × CredStore :=
  if userExists username store then (false, store)
  else
    let salt := generateSalt dist
    let passSaltHash := md5 (password ++ salt)
    (true,
      { saltFile := appendFile store.saltFile (username ++ [':'] ++ salt ++ ['\n'])
        shadowFile := appendFile store.shadowFile
          (username ++ [':'] ++ passSaltHash ++ [':'] ++ to_string clearance ++ ['\n']) })

/-- The salt-extraction loop of `authenticateUser`. -/
def extractSalt (username : Str) : List Str → Str
  | [] => []
  | line :: rest =>
    if hasUserPrefix username line then line.drop (username.length + 1)
    else extractSalt username rest

/-- What is left of a string stream after `std::getline(ss, field, ':')` read a
field from `s`: `none` when the end was reached without a delimiter. -/
def afterField (s : Str) : Option Str :=
  if ':' ∈ s then some ((s.dropWhile (fun x => x != ':')).drop 1) else none

/-- The variable `storedUsername` after parsing a line of the shadow file. -/
def storedUsername (line : Str) : Str := line.takeWhile (fun x => x != ':')

/-- The variable `storedHash` after parsing a line of the shadow file. -/
def storedHash (line : Str) : Str :=
  match afterField line with
  | none => []
  | some r => r.takeWhile (fun x => x != ':')

/-- The variable `storedClearance` after parsing a line of the shadow file;
`uninit` is the value the uninitialised variable holds when nothing is written. -/
def storedClearance (uninit : Int) (line : Str) : Int :=
  match (afterField line).bind afterField with
  | none => uninit
  | some r =>
    match scanInt r with
    | .untouched => uninit
    | .failed v => v
    | .ok v _ => v

/-- The comparison loop of `authenticateUser` over the lines of the shadow file. -/
def matchShadow (uninit : Int) (username passSaltHash : Str) : List Str → Option Int
  | [] => none
  | line :: rest =>
    if storedUsername line = username ∧ storedHash line = passSaltHash then
      some (storedClearance uninit line)
    else matchShadow uninit username passSaltHash rest

/-- The function `authenticateUser`: `some c` when it returns `true` having set
`clearance` to `c`, `none` when it returns `false`. -/
def authenticateUser (md5 : Str → Str) (uninit : Int) (username password : Str)
    (store : CredStore) : Option Int :=
  match store.saltFile, store.shadowFile with
  | some saltText, some shadowText =>
    if userExists username store then
      let salt := extractSalt username (getlines saltText)
      let passSaltHash := md5 (password ++ salt)
      matchShadow uninit username passSaltHash (getlines shadowText)
    else none
  | _, _ => none

/-- A string that `istream >> std::string` reads back whole: it is not empty
and holds no whitespace. -/
def isToken (s : Str) : Prop := s ≠ [] ∧ ∀ c ∈ s, isspace c = false

instance (s : Str) : Decidable (isToken s) := by
  unfold isToken
  exact inferInstance

/-! ## Notions used to state the properties of the credential store -/

/-- A text is made of complete lines: it is empty or its last character is a newline. -/
def endsLine : Str → Bool
  | [] => true
  | [c] => c = '\n'
  | _ :: c :: cs => endsLine (c :: cs)

/-- A username that fits the line format `username:salt`: it holds neither the
delimiter nor a newline. -/
def validName (username : Str) : Prop := ':' ∉ username ∧ '\n' ∉ username

instance (username : Str) : Decidable (validName username) := by
  unfold validName
  exact inferInstance

/-- The digits of a hexadecimal digest. -/
def hexDigits : Str := "0123456789abcdef".toList

/-- The shape of the values of `md5`: 32 hexadecimal digits. -/
def HexDigest (md5 : Str → Str) : Prop :=
  ∀ m, (md5 m).length = 32 ∧ ∀ c ∈ md5 m, c ∈ hexDigits

/-- An example of a digest function of that shape, used to evaluate the
program on concrete inputs: the hexadecimal digits, least significant first, of
the sum of the character codes of the message. -/
def toyDigest (m : Str) : Str :=
  (List.range 32).map (fun i => hexDigits.getD ((m.map Char.toNat).sum / 16 ^ i % 16) '0')

/-- The files of a credential store are in the form `createUser` leaves them in
when it is given valid usernames: both files are made of complete lines, every
line holds a delimiter, and every username of the shadow file exists in the
salt file. -/
def CredStore.WF (store : CredStore) : Prop :=
  endsLine (store.saltFile.getD []) = true ∧
  endsLine (store.shadowFile.getD []) = true ∧
  (∀ line ∈ getlines (store.saltFile.getD []), ':' ∈ line) ∧
  (∀ line ∈ getlines (store.shadowFile.getD []),
    ':' ∈ line ∧ userExists (storedUsername line) store = true)

/-- The usernames carried by the lines of a file, each read as `authenticateUser`
reads it: the text before the first delimiter. -/
def usernames (file : Option Str) : List Str :=
  (getlines (file.getD [])).map storedUsername

/-- No two records of the salt file, and no two records of the shadow file,
carry the same username. -/
def CredStore.Unique (store : CredStore) : Prop :=
  (usernames store.saltFile).Nodup ∧ (usernames store.shadowFile).Nodup

/-- A salt as the specification describes it: a string of `SALT_LENGTH` decimal digits. -/
def isSalt (salt : Str) : Bool := decide (salt.length = SALT_LENGTH) && salt.all isdigit

/-- The username of a record of the salt file. A record is a line `username:salt`
whose salt is `SALT_LENGTH` digits, so its username is the text in front of the
delimiter that precedes the last `SALT_LENGTH` characters; a line that is not of
that form is not a record. -/
def recordUsername (line : Str) : Option Str :=
  if line.drop (line.length - (SALT_LENGTH + 1))
        = ':' :: line.drop (line.length - (SALT_LENGTH + 1) + 1) ∧
      isSalt (line.drop (line.length - (SALT_LENGTH + 1) + 1)) = true then
    some (line.take (line.length - (SALT_LENGTH + 1)))
  else none

/-- A credential record whose username is exactly `username` is present in the store. -/
def hasRecord (username : Str) (store : CredStore) : Bool :=
  (getlines (store.saltFile.getD [])).any (fun line => recordUsername line = some username)

/-- The line is a record whose username does not hold the delimiter. -/
def isPlainRecord (line : Str) : Bool :=
  match recordUsername line with
  | some name => decide (':' ∉ name)
  | none => false

/-- The credential store made of two empty files, as `initializeSystem` creates them. -/
def emptyStore : CredStore := ⟨some [], some []⟩

/-! ## The digest function

`md5.h` is not among the sources. The functions above take the digest function
as a parameter; the definitions of this section give the function the program
is built with, for the evaluation of the program on concrete inputs. -/

/-- Modelled from the spec: the additive constants of MD5 (RFC 1321), the
integer parts of `2^32 * |sin (i + 1)|`. -/
def md5K : List Nat :=
  [
   0xd76aa478, 0xe8c7b756, 0x242070db, 0xc1bdceee, 0xf57c0faf, 0x4787c62a,
   0xa8304613, 0xfd469501, 0x698098d8, 0x8b44f7af, 0xffff5bb1, 0x895cd7be,
   0x6b901122, 0xfd987193, 0xa679438e, 0x49b40821, 0xf61e2562, 0xc040b340,
   0x265e5a51, 0xe9b6c7aa, 0xd62f105d, 0x02441453, 0xd8a1e681, 0xe7d3fbc8,
   0x21e1cde6, 0xc33707d6, 0xf4d50d87, 0x455a14ed, 0xa9e3e905, 0xfcefa3f8,
   0x676f02d9, 0x8d2a4c8a, 0xfffa3942, 0x8771f681, 0x6d9d6122, 0xfde5380c,
   0xa4beea44, 0x4bdecfa9, 0xf6bb4b60, 0xbebfbc70, 0x289b7ec6, 0xeaa127fa,
   0xd4ef3085, 0x04881d05, 0xd9d4d039, 0xe6db99e5, 0x1fa27cf8, 0xc4ac5665,
   0xf4292244, 0x432aff97, 0xab9423a7, 0xfc93a039, 0x655b59c3, 0x8f0ccc92,
   0xffeff47d, 0x85845dd1, 0x6fa87e4f, 0xfe2ce6e0, 0xa3014314, 0x4e0811a1,
   0xf7537e82, 0xbd3af235, 0x2ad7d2bb, 0xeb86d391]

/-- Modelled from the spec: the rotation amounts of the 64 steps of MD5. -/
def md5S : List Nat :=
  [
   7, 12, 17, 22, 7, 12, 17, 22, 7, 12, 17, 22, 7, 12, 17, 22,
   5, 9, 14, 20, 5, 9, 14, 20, 5, 9, 14, 20, 5, 9, 14, 20,
   4, 11, 16, 23, 4, 11, 16, 23, 4, 11, 16, 23, 4, 11, 16, 23,
   6, 10, 15, 21, 6, 10, 15, 21, 6, 10, 15, 21, 6, 10, 15, 21]

/-- Modelled from the spec: rotation of a 32-bit word to the left. -/
def rotl32 (x n : Nat) : Nat := (x <<< n ||| x >>> (32 - n)) % 4294967296

/-- Modelled from the spec: the auxiliary function of step `i` of MD5. -/
def md5F (i b c d : Nat) : Nat :=
  if i < 16 then (b &&& c) ||| ((b ^^^ 4294967295) &&& d)
  else if i < 32 then (d &&& b) ||| ((d ^^^ 4294967295) &&& c)
  else if i < 48 then b ^^^ c ^^^ d
  else c ^^^ (b ||| (d ^^^ 4294967295))

/-- Modelled from the spec: the index of the message word used in step `i` of MD5. -/
def md5G (i : Nat) : Nat :=
  if i < 16 then i
  else if i < 32 then (5 * i + 1) % 16
  else if i < 48 then (3 * i + 5) % 16
  else (7 * i) % 16

/-- Modelled from the spec: step `i` of MD5 on the state `(a, b, c, d)` for the
block of 16 words `M`. -/
def md5Step (M : List Nat) (st : Nat × Nat × Nat × Nat) (i : Nat) : Nat × Nat × Nat × Nat :=
  let f := (md5F i st.2.1 st.2.2.1 st.2.2.2 + st.1 + md5K.getD i 0 + M.getD (md5G i) 0)
    % 4294967296
  (st.2.2.2, (st.2.1 + rotl32 f (md5S.getD i 0)) % 4294967296, st.2.1, st.2.2.1)

/-- Modelled from the spec: the compression of one block of 16 words into the state. -/
def md5Block (st : Nat × Nat × Nat × Nat) (M : List Nat) : Nat × Nat × Nat × Nat :=
  let r := (List.range 64).foldl (md5Step M) st
  ((st.1 + r.1) % 4294967296, (st.2.1 + r.2.1) % 4294967296,
   (st.2.2.1 + r.2.2.1) % 4294967296, (st.2.2.2 + r.2.2.2) % 4294967296)

/-- Modelled from the spec: the bytes of a message grouped into little-endian
32-bit words. -/
def md5Words : List Nat → List Nat
  | b0 :: b1 :: b2 :: b3 :: rest =>
    (b0 + 256 * b1 + 65536 * b2 + 16777216 * b3) :: md5Words rest
  | _ => []

/-- Modelled from the spec: the padding of MD5, a byte 128, zero bytes up to 56
modulo 64, and the length in bits as eight little-endian bytes. -/
def md5Pad (bytes : List Nat) : List Nat :=
  bytes ++ [128] ++ List.replicate ((119 - bytes.length % 64) % 64) 0 ++
    (List.range 8).map (fun i => 8 * bytes.length / 256 ^ i % 256)

/-- Modelled from the spec: the compression of `n` successive blocks. -/
def md5Blocks : Nat → Nat × Nat × Nat × Nat → List Nat → Nat × Nat × Nat × Nat
  | 0, st, _ => st
  | n + 1, st, words => md5Blocks n (md5Block st (words.take 16)) (words.drop 16)

/-- Modelled from the spec: a byte as two lowercase hexadecimal digits. -/
def hexByte (b : Nat) : Str := [hexDigits.getD (b / 16 % 16) '0', hexDigits.getD (b % 16) '0']

/-- Modelled from the spec: a 32-bit word as the hexadecimal digits of its four
bytes, least significant byte first. -/
def hexWord (w : Nat) : Str :=
  hexByte (w % 256) ++ hexByte (w / 256 % 256) ++ hexByte (w / 65536 % 256) ++
    hexByte (w / 16777216 % 256)

/-- Modelled from the spec: the function `md5` of `md5.h`, which is not among
the sources. The specification describes the digest as a 128-bit
general-purpose hash and the program names it MD5: this is MD5 as RFC 1321
defines it, over the bytes of the message, returned as 32 lowercase hexadecimal
digits. -/
def md5 (message : Str) : Str :=
  let words := md5Words (md5Pad (message.map (fun c => c.toNat % 256)))
  let r := md5Blocks (words.length / 16) (1732584193, 4023233417, 2562383102, 271733878) words
  hexWord r.1 ++ hexWord r.2.1 ++ hexWord r.2.2.1 ++ hexWord r.2.2.2

/-- The constant `MD5_TEST_STRING` of FileSystem.h, whose digest `main` prints. -/
def MD5_TEST_STRING : Str := "This is a test".toList

/-- The bytes of the first of two 128-byte messages with the same MD5 digest
(the collision published by Wang and Yu in 2004). -/
def collisionBytesA : List Nat :=
  [
   0xd1, 0x31, 0xdd, 0x02, 0xc5, 0xe6, 0xee, 0xc4, 0x69, 0x3d, 0x9a, 0x06, 0x98, 0xaf, 0xf9, 0x5c,
   0x2f, 0xca, 0xb5, 0x87, 0x12, 0x46, 0x7e, 0xab, 0x40, 0x04, 0x58, 0x3e, 0xb8, 0xfb, 0x7f, 0x89,
   0x55, 0xad, 0x34, 0x06, 0x09, 0xf4, 0xb3, 0x02, 0x83, 0xe4, 0x88, 0x83, 0x25, 0x71, 0x41, 0x5a,
   0x08, 0x51, 0x25, 0xe8, 0xf7, 0xcd, 0xc9, 0x9f, 0xd9, 0x1d, 0xbd, 0xf2, 0x80, 0x37, 0x3c, 0x5b,
   0xd8, 0x82, 0x3e, 0x31, 0x56, 0x34, 0x8f, 0x5b, 0xae, 0x6d, 0xac, 0xd4, 0x36, 0xc9, 0x19, 0xc6,
   0xdd, 0x53, 0xe2, 0xb4, 0x87, 0xda, 0x03, 0xfd, 0x02, 0x39, 0x63, 0x06, 0xd2, 0x48, 0xcd, 0xa0,
   0xe9, 0x9f, 0x33, 0x42, 0x0f, 0x57, 0x7e, 0xe8, 0xce, 0x54, 0xb6, 0x70, 0x80, 0xa8, 0x0d, 0x1e,
   0xc6, 0x98, 0x21, 0xbc, 0xb6, 0xa8, 0x83, 0x93, 0x96, 0xf9, 0x65, 0x2b, 0x6f, 0xf7, 0x2a, 0x70]

/-- The bytes of the second message: it differs from the first in six bytes. -/
def collisionBytesB : List Nat :=
  [
   0xd1, 0x31, 0xdd, 0x02, 0xc5, 0xe6, 0xee, 0xc4, 0x69, 0x3d, 0x9a, 0x06, 0x98, 0xaf, 0xf9, 0x5c,
   0x2f, 0xca, 0xb5, 0x07, 0x12, 0x46, 0x7e, 0xab, 0x40, 0x04, 0x58, 0x3e, 0xb8, 0xfb, 0x7f, 0x89,
   0x55, 0xad, 0x34, 0x06, 0x09, 0xf4, 0xb3, 0x02, 0x83, 0xe4, 0x88, 0x83, 0x25, 0xf1, 0x41, 0x5a,
   0x08, 0x51, 0x25, 0xe8, 0xf7, 0xcd, 0xc9, 0x9f, 0xd9, 0x1d, 0xbd, 0x72, 0x80, 0x37, 0x3c, 0x5b,
   0xd8, 0x82, 0x3e, 0x31, 0x56, 0x34, 0x8f, 0x5b, 0xae, 0x6d, 0xac, 0xd4, 0x36, 0xc9, 0x19, 0xc6,
   0xdd, 0x53, 0xe2, 0x34, 0x87, 0xda, 0x03, 0xfd, 0x02, 0x39, 0x63, 0x06, 0xd2, 0x48, 0xcd, 0xa0,
   0xe9, 0x9f, 0x33, 0x42, 0x0f, 0x57, 0x7e, 0xe8, 0xce, 0x54, 0xb6, 0x70, 0x80, 0x28, 0x0d, 0x1e,
   0xc6, 0x98, 0x21, 0xbc, 0xb6, 0xa8, 0x83, 0x93, 0x96, 0xf9, 0x65, 0xab, 0x6f, 0xf7, 0x2a, 0x70]

/-- The password whose bytes are `collisionBytesA`. -/
def passwordA : Str := collisionBytesA.map Char.ofNat

/-- The password whose bytes are `collisionBytesB`. -/
def passwordB : Str := collisionBytesB.map Char.ofNat

/-- What two lookups of one filename show to a reader of clearance `k` is the
same: the file is absent from both stores, or present in both with the same
owner and the same classification and, unless the classification is greater
than `k`, the same content. -/
def agreeAt (k : Int) : Option FileEntry → Option FileEntry → Prop
  | none, none => True
  | some e1, some e2 =>
    e1.owner = e2.owner ∧ e1.classification = e2.classification ∧
      (¬ e1.classification > k → e1.content = e2.content)
  | _, _ => False

/-- Two file stores have the same filenames, owners and classifications and
differ only in the content of records whose classification is greater than `k`. -/
def lowEquiv (k : Int) (m1 m2 : FileStore) : Prop :=
  ∀ filename, agreeAt k (find filename m1) (find filename m2)

instance (store : CredStore) : Decidable store.Unique := by
  unfold CredStore.Unique
  exact inferInstance

/-! ## Facts about the map operations -/

theorem find_assign (f g : Str) (e : FileEntry) (m : FileStore) :
    find g (assign f e m) = if g = f then some e else find g m := by
  induction m with
  | nil =>
    by_cases h : g = f
    · simp [assign, find, h]
    · have h2 : ¬ f = g := fun x => h x.symm
      simp [assign, find, h, h2]
  | cons p rest ih =>
    obtain ⟨k, v⟩ := p
    unfold assign
    by_cases h1 : f < k
    · rw [if_pos h1]
      by_cases h : g = f
      · simp [find, h]
      · have h2 : ¬ f = g := fun x => h x.symm
        simp [find, h, h2]
    · rw [if_neg h1]
      by_cases h2 : k < f
      · rw [if_pos h2]
        have hk : k ≠ f := ne_of_lt h2
        by_cases h : g = f
        · subst h
          simp [find, hk, ih]
        · simp only [find, ih, if_neg h]
      · rw [if_neg h2]
        have hk : k = f := by
          rcases lt_trichotomy f k with h | h | h
          · exact absurd h h1
          · exact h.symm
          · exact absurd h h2
        subst hk
        by_cases h : g = k
        · simp [find, h]
        · have h3 : ¬ k = g := fun x => h x.symm
          simp [find, h, h3]

theorem find_modify (f g : Str) (u : FileEntry → FileEntry) (m : FileStore) :
    find g (modify f u m) = if g = f then (find g m).map u else find g m := by
  induction m with
  | nil => simp [modify, find]
  | cons p rest ih =>
    obtain ⟨k, v⟩ := p
    unfold modify
    by_cases hk : k = f
    · rw [if_pos hk]
      subst hk
      by_cases h : g = k
      · simp [find, h]
      · have h3 : ¬ k = g := fun x => h x.symm
        simp [find, h, h3]
    · rw [if_neg hk]
      by_cases h : g = f
      · subst h
        simp [find, hk, ih]
      · simp only [find, ih, if_neg h]

theorem assign_perm (f : Str) (e : FileEntry) (m : FileStore) (h : find f m = none) :
    List.Perm (assign f e m) ((f, e) :: m) := by
  induction m with
  | nil => simp [assign]
  | cons p rest ih =>
    obtain ⟨k, v⟩ := p
    have hk : k ≠ f := by
      intro hkf
      simp [find, hkf] at h
    have hrest : find f rest = none := by
      simpa [find, hk] using h
    unfold assign
    by_cases h1 : f < k
    · rw [if_pos h1]
    · rw [if_neg h1]
      have h2 : k < f := by
        rcases lt_trichotomy f k with h3 | h3 | h3
        · exact absurd h3 h1
        · exact absurd h3.symm hk
        · exact h3
      rw [if_pos h2]
      exact ((ih hrest).cons (k, v)).trans (List.Perm.swap _ _ _)

theorem find_isSome_of_mem (a1 : Str) (a2 : FileEntry) (l : FileStore) (h : (a1, a2) ∈ l) :
    (find a1 l).isSome = true := by
  induction l with
  | nil => exact absurd h (List.not_mem_nil _)
  | cons q l ihl =>
    obtain ⟨q1, q2⟩ := q
    by_cases hq1 : q1 = a1
    · simp [find, hq1]
    · rcases List.mem_cons.mp h with hq | hq
      · exact absurd (congrArg Prod.fst hq).symm hq1
      · simpa [find, hq1] using ihl hq

theorem mem_of_find (a1 : Str) (e : FileEntry) (l : FileStore) (h : find a1 l = some e) :
    (a1, e) ∈ l := by
  induction l with
  | nil => simp [find] at h
  | cons q l ihl =>
    obtain ⟨q1, q2⟩ := q
    by_cases hq1 : q1 = a1
    · simp only [find, if_pos hq1, Option.some.injEq] at h
      rw [hq1, h]
      exact List.mem_cons_self _ _
    · simp only [find, if_neg hq1] at h
      exact List.mem_cons_of_mem _ (ihl h)

theorem assign_WF (f : Str) (e : FileEntry) (m : FileStore) (h : m.WF) : (assign f e m).WF := by
  induction m with
  | nil => simp [assign, FileStore.WF]
  | cons p rest ih =>
    obtain ⟨k, v⟩ := p
    have hp := List.pairwise_cons.mp h
    unfold assign
    by_cases h1 : f < k
    · rw [if_pos h1]
      refine List.pairwise_cons.mpr ⟨?_, h⟩
      intro a ha
      rcases List.mem_cons.mp ha with ha | ha
      · subst ha
        exact h1
      · exact lt_trans h1 (hp.1 a ha)
    · rw [if_neg h1]
      by_cases h2 : k < f
      · rw [if_pos h2]
        refine List.pairwise_cons.mpr ⟨?_, ih hp.2⟩
        intro a ha
        by_cases haf : a.1 = f
        · rw [haf]
          exact h2
        · obtain ⟨a1, a2⟩ := a
          have hfa : find a1 (assign f e rest) = find a1 rest := by
            rw [find_assign, if_neg haf]
          have hsome : (find a1 rest).isSome = true := hfa ▸ find_isSome_of_mem a1 a2 _ ha
          obtain ⟨b, hb⟩ := Option.isSome_iff_exists.mp hsome
          exact hp.1 (a1, b) (mem_of_find a1 b rest hb)
      · rw [if_neg h2]
        exact List.pairwise_cons.mpr ⟨hp.1, hp.2⟩

theorem modify_WF (f : Str) (u : FileEntry → FileEntry) (m : FileStore) (h : m.WF) :
    (modify f u m).WF := by
  have hkeys : ∀ l : FileStore, (modify f u l).map Prod.fst = l.map Prod.fst := by
    intro l
    induction l with
    | nil => rfl
    | cons p rest ih =>
      obtain ⟨k, v⟩ := p
      unfold modify
      by_cases hk : k = f
      · simp [hk]
      · simp [hk, ih]
  have hiff : ∀ l : FileStore, l.WF ↔ (l.map Prod.fst).Pairwise (fun a b => a < b) := by
    intro l
    simp [FileStore.WF, List.pairwise_map]
  rw [hiff, hkeys, ← hiff]
  exact h

/-! ## Facts about lines and fields -/

theorem getlines_cons_newline (cs : Str) : getlines ('\n' :: cs) = [] :: getlines cs := by
  rw [getlines, if_pos rfl]

theorem getlines_cons_of_nil (c : Char) (cs : Str) (hc : c ≠ '\n') (h : getlines cs = []) :
    getlines (c :: cs) = [[c]] := by
  rw [getlines, if_neg hc, h]

theorem getlines_cons_of_cons (c : Char) (cs l : Str) (ls : List Str) (hc : c ≠ '\n')
    (h : getlines cs = l :: ls) : getlines (c :: cs) = (c :: l) :: ls := by
  rw [getlines, if_neg hc, h]

theorem getlines_eq_nil (t : Str) : getlines t = [] ↔ t = [] := by
  cases t with
  | nil => simp [getlines]
  | cons c cs =>
    by_cases hc : c = '\n'
    · rw [hc, getlines_cons_newline]
      simp
    · cases hg : getlines cs with
      | nil => rw [getlines_cons_of_nil c cs hc hg]; simp
      | cons l ls => rw [getlines_cons_of_cons c cs l ls hc hg]; simp

theorem getlines_line (l rest : Str) (h : '\n' ∉ l) :
    getlines (l ++ '\n' :: rest) = l :: getlines rest := by
  induction l with
  | nil => exact getlines_cons_newline rest
  | cons c l ih =>
    have hc : c ≠ '\n' := fun hc => h (hc ▸ List.mem_cons_self _ _)
    have hl : '\n' ∉ l := fun hl => h (List.mem_cons_of_mem _ hl)
    exact getlines_cons_of_cons c _ l _ hc (ih hl)

theorem endsLine_append (a b : Str) (hb : b ≠ []) : endsLine (a ++ b) = endsLine b := by
  induction a with
  | nil => rfl
  | cons c a ih =>
    cases hab : a ++ b with
    | nil =>
      have := List.append_eq_nil.mp hab
      exact absurd this.2 hb
    | cons d r =>
      rw [List.cons_append, hab, endsLine, ← hab, ih]

theorem getlines_append (a b : Str) (h : endsLine a = true) :
    getlines (a ++ b) = getlines a ++ getlines b := by
  induction a with
  | nil => simp [getlines]
  | cons c a ih =>
    cases a with
    | nil =>
      have hc : c = '\n' := by simpa [endsLine] using h
      rw [hc, List.cons_append, List.nil_append, getlines_cons_newline, getlines_cons_newline]
      rfl
    | cons d r =>
      have h2 : endsLine (d :: r) = true := by simpa [endsLine] using h
      have ih2 := ih h2
      by_cases hc : c = '\n'
      · rw [hc, List.cons_append, getlines_cons_newline, getlines_cons_newline, ih2]
        rfl
      · have hne : getlines (d :: r) ≠ [] := by
          intro hx
          have := (getlines_eq_nil _).mp hx
          simp at this
        obtain ⟨l, ls, hls⟩ := List.exists_cons_of_ne_nil hne
        have e1 : getlines (c :: (d :: r ++ b)) = (c :: l) :: (ls ++ getlines b) := by
          apply getlines_cons_of_cons c _ l _ hc
          rw [ih2, hls]
          rfl
        have e2 : getlines (c :: d :: r) = (c :: l) :: ls :=
          getlines_cons_of_cons c _ l ls hc hls
        rw [List.cons_append, e1, e2]
        rfl

theorem newline_not_mem_getlines (t line : Str) (h : line ∈ getlines t) : '\n' ∉ line := by
  induction t generalizing line with
  | nil => simp [getlines] at h
  | cons c cs ih =>
    by_cases hc : c = '\n'
    · rw [hc, getlines_cons_newline] at h
      rcases List.mem_cons.mp h with h | h
      · simp [h]
      · exact ih line h
    · cases hg : getlines cs with
      | nil =>
        rw [getlines_cons_of_nil c cs hc hg] at h
        have : line = [c] := by simpa using h
        rw [this]
        simpa using Ne.symm hc
      | cons l ls =>
        rw [getlines_cons_of_cons c cs l ls hc hg] at h
        rcases List.mem_cons.mp h with h | h
        · rw [h]
          have hl := ih l (hg ▸ List.mem_cons_self _ _)
          intro hm
          rcases List.mem_cons.mp hm with hm | hm
          · exact hc hm.symm
          · exact hl hm
        · exact ih line (hg ▸ List.mem_cons_of_mem _ h)

/-- A text without newline, followed by a newline, is one line. -/
theorem getlines_single (l : Str) (h : '\n' ∉ l) : getlines (l ++ ['\n']) = [l] := by
  rw [getlines_line l [] h]
  rfl

theorem hasUserPrefix_iff (u line : Str) :
    hasUserPrefix u line = true ↔ ∃ r, line = u ++ ':' :: r := by
  unfold hasUserPrefix
  rw [List.isPrefixOf_iff_prefix]
  constructor
  · rintro ⟨r, hr⟩
    exact ⟨r, by simp [← hr]⟩
  · rintro ⟨r, hr⟩
    exact ⟨r, by simp [hr]⟩

theorem storedUsername_append (u r : Str) (h : ':' ∉ u) :
    storedUsername (u ++ ':' :: r) = u := by
  unfold storedUsername
  induction u with
  | nil => simp [List.takeWhile]
  | cons c u ih =>
    have hc : c ≠ ':' := fun hc => h (hc ▸ List.mem_cons_self _ _)
    have hu : ':' ∉ u := fun hu => h (List.mem_cons_of_mem _ hu)
    rw [List.cons_append, List.takeWhile_cons, ih hu]
    simp [hc]

theorem afterField_append (u r : Str) (h : ':' ∉ u) :
    afterField (u ++ ':' :: r) = some r := by
  unfold afterField
  rw [if_pos (by simp)]
  congr 1
  induction u with
  | nil => simp [List.dropWhile]
  | cons c u ih =>
    have hc : c ≠ ':' := fun hc => h (hc ▸ List.mem_cons_self _ _)
    have hu : ':' ∉ u := fun hu => h (List.mem_cons_of_mem _ hu)
    have hb : (c != ':') = true := by simpa using hc
    rw [List.cons_append, List.dropWhile_cons, hb, if_pos rfl, ih hu]

theorem colon_not_mem_storedUsername (line : Str) : ':' ∉ storedUsername line := by
  unfold storedUsername
  intro h
  have := List.mem_takeWhile_imp h
  simp at this

/-- A line with a delimiter is its first field, the delimiter and the rest. -/
theorem line_eq_storedUsername (line : Str) (h : ':' ∈ line) :
    ∃ r, line = storedUsername line ++ ':' :: r := by
  unfold storedUsername
  induction line with
  | nil => simp at h
  | cons c l ih =>
    by_cases hc : c = ':'
    · exact ⟨l, by simp [List.takeWhile, hc]⟩
    · have hl : ':' ∈ l := by
        rcases List.mem_cons.mp h with h | h
        · exact absurd h.symm hc
        · exact h
      obtain ⟨r, hr⟩ := ih hl
      refine ⟨r, ?_⟩
      have hb : (c != ':') = true := by simpa using hc
      rw [List.takeWhile_cons, hb, if_pos rfl, List.cons_append, ← hr]

/-- For a username without delimiter, the prefix test of `userExists` holds of
a line exactly when the line has a delimiter and the username as first field. -/
theorem hasUserPrefix_iff_stored (u line : Str) (hu : ':' ∉ u) :
    hasUserPrefix u line = true ↔ (':' ∈ line ∧ storedUsername line = u) := by
  rw [hasUserPrefix_iff]
  constructor
  · rintro ⟨r, hr⟩
    rw [hr]
    exact ⟨by simp, storedUsername_append u r hu⟩
  · rintro ⟨hc, hs⟩
    obtain ⟨r, hr⟩ := line_eq_storedUsername line hc
    exact ⟨r, hs ▸ hr⟩

theorem storedUsername_append_of_mem (a b : Str) (h : ':' ∈ a) :
    storedUsername (a ++ b) = storedUsername a := by
  unfold storedUsername
  induction a with
  | nil => exact absurd h (List.not_mem_nil _)
  | cons c a ih =>
    rw [List.cons_append, List.takeWhile_cons, List.takeWhile_cons]
    by_cases hc : c = ':'
    · have hb : (c != ':') = false := by simp [hc]
      rw [hb]
      rfl
    · have hb : (c != ':') = true := by simpa using hc
      have ha : ':' ∈ a := by
        rcases List.mem_cons.mp h with h | h
        · exact absurd h.symm hc
        · exact h
      rw [hb, if_pos rfl, if_pos rfl, ih ha]

theorem storedUsername_append_of_not_mem (a b : Str) (h : ':' ∉ a) :
    storedUsername (a ++ b) = a ++ storedUsername b := by
  unfold storedUsername
  have hall : ∀ c ∈ a, (c != ':') = true := by
    intro c hc
    have : c ≠ ':' := fun hx => h (hx ▸ hc)
    simpa using this
  exact List.takeWhile_append_of_pos hall

/-- A line is split at its first delimiter in one way only. -/
theorem split_unique (x y a b : Str) (hx : ':' ∉ x) (hy : ':' ∉ y)
    (h : x ++ ':' :: a = y ++ ':' :: b) : x = y ∧ a = b := by
  have h1 := congrArg storedUsername h
  rw [storedUsername_append x a hx, storedUsername_append y b hy] at h1
  have h2 := congrArg afterField h
  rw [afterField_append x a hx, afterField_append y b hy] at h2
  exact ⟨h1, Option.some.inj h2⟩

/-! ## Facts about decimal numbers -/

theorem digitChar_toNat (d : Nat) (h : d < 10) : (digitChar d).toNat = 48 + d := by
  interval_cases d <;> rfl

theorem isdigit_digitChar (d : Nat) (h : d < 10) : isdigit (digitChar d) = true := by
  interval_cases d <;> rfl

theorem digitsVal_append (ds : Str) (c : Char) :
    digitsVal (ds ++ [c]) = digitsVal ds * 10 + (c.toNat - 48) := by
  simp [digitsVal, List.foldl_append]

theorem natDigitsAux_spec (fuel n : Nat) (acc : Str) (h : n < fuel) :
    ∃ ds, natDigitsAux fuel n acc = ds ++ acc ∧ ds ≠ [] ∧
      (∀ c ∈ ds, isdigit c = true) ∧ digitsVal ds = n := by
  induction fuel generalizing n acc with
  | zero => exact absurd h (Nat.not_lt_zero _)
  | succ fuel ih =>
    have hmod : n % 10 < 10 := Nat.mod_lt _ (by decide)
    rw [natDigitsAux]
    by_cases h0 : n / 10 = 0
    · rw [if_pos h0]
      refine ⟨[digitChar (n % 10)], rfl, by simp, ?_, ?_⟩
      · intro c hc
        rw [List.mem_singleton.mp hc]
        exact isdigit_digitChar _ hmod
      · have hn : n % 10 = n := by omega
        have hd := digitChar_toNat _ hmod
        rw [hn] at hd ⊢
        simp [digitsVal, hd]
    · rw [if_neg h0]
      have hlt : n / 10 < fuel := by omega
      obtain ⟨ds, hds, _, hdig, hval⟩ := ih (n / 10) (digitChar (n % 10) :: acc) hlt
      refine ⟨ds ++ [digitChar (n % 10)], by simp [hds], by simp, ?_, ?_⟩
      · intro c hc
        rcases List.mem_append.mp hc with hc | hc
        · exact hdig c hc
        · rw [List.mem_singleton.mp hc]
          exact isdigit_digitChar _ hmod
      · rw [digitsVal_append, hval, digitChar_toNat _ hmod]
        omega

theorem natToStr_spec (n : Nat) :
    natToStr n ≠ [] ∧ (∀ c ∈ natToStr n, isdigit c = true) ∧ digitsVal (natToStr n) = n := by
  obtain ⟨ds, hds, hne, hdig, hval⟩ := natDigitsAux_spec (n + 1) n [] (Nat.lt_succ_self n)
  have : natToStr n = ds := by simpa [natToStr] using hds
  rw [this]
  exact ⟨hne, hdig, hval⟩

/-- Every character of a printed integer is a digit or the minus sign. -/
theorem mem_to_string (n : Int) (c : Char) (h : c ∈ to_string n) :
    isdigit c = true ∨ c = '-' := by
  unfold to_string at h
  by_cases hn : n < 0
  · rw [if_pos hn] at h
    rcases List.mem_cons.mp h with h | h
    · exact Or.inr h
    · exact Or.inl ((natToStr_spec _).2.1 c h)
  · rw [if_neg hn] at h
    exact Or.inl ((natToStr_spec _).2.1 c h)

theorem isdigit_not_special (c : Char) (h : isdigit c = true) :
    c ≠ ':' ∧ c ≠ '\n' ∧ c ≠ '-' ∧ c ≠ '+' ∧ isspace c = false := by
  simp only [isdigit, Bool.and_eq_true, decide_eq_true_eq] at h
  refine ⟨?_, ?_, ?_, ?_, ?_⟩
  · rintro rfl; exact absurd h.2 (by decide)
  · rintro rfl; exact absurd h.1 (by decide)
  · rintro rfl; exact absurd h.1 (by decide)
  · rintro rfl; exact absurd h.1 (by decide)
  · simp only [isspace, Bool.or_eq_false_iff, decide_eq_false_iff_not]
    refine ⟨⟨⟨⟨⟨?_, ?_⟩, ?_⟩, ?_⟩, ?_⟩, ?_⟩ <;>
      (rintro rfl; exact absurd h.1 (by decide))

theorem to_string_no_colon (n : Int) : ':' ∉ to_string n := by
  intro h
  rcases mem_to_string n _ h with h | h
  · exact (isdigit_not_special _ h).1 rfl
  · exact absurd h (by decide)

theorem to_string_no_newline (n : Int) : '\n' ∉ to_string n := by
  intro h
  rcases mem_to_string n _ h with h | h
  · exact (isdigit_not_special _ h).2.1 rfl
  · exact absurd h (by decide)

theorem takeWhile_digits (ds t : Str) (hds : ∀ c ∈ ds, isdigit c = true)
    (ht : ∀ x, t.head? = some x → isdigit x = false) :
    (ds ++ t).takeWhile isdigit = ds ∧ (ds ++ t).dropWhile isdigit = t := by
  rw [List.takeWhile_append_of_pos hds, List.dropWhile_append_of_pos hds]
  cases t with
  | nil => simp
  | cons x t =>
    have hx := ht x rfl
    simp [List.takeWhile_cons, List.dropWhile_cons, hx]

/-- Reading back a printed `int`: after any whitespace, the extraction yields
the number and leaves what follows it, provided that does not start with a digit. -/
theorem scanInt_to_string (ws t : Str) (n : Int) (hws : ∀ c ∈ ws, isspace c = true)
    (hmin : INT_MIN ≤ n) (hmax : n ≤ INT_MAX)
    (ht : ∀ x, t.head? = some x → isdigit x = false) :
    scanInt (ws ++ to_string n ++ t) = .ok n t := by
  obtain ⟨hne, hdig, hval⟩ := natToStr_spec n.natAbs
  obtain ⟨d0, ds, hds⟩ := List.exists_cons_of_ne_nil hne
  have hd0 : isdigit d0 = true := hdig d0 (hds ▸ List.mem_cons_self _ _)
  have hsp := isdigit_not_special d0 hd0
  have htw := takeWhile_digits (natToStr n.natAbs) t hdig ht
  unfold scanInt
  rw [List.append_assoc, List.dropWhile_append_of_pos hws]
  by_cases hn : n < 0
  · have hts : to_string n = '-' :: natToStr n.natAbs := by simp [to_string, hn]
    have hv : -((digitsVal (natToStr n.natAbs) : Nat) : Int) = n := by
      rw [hval]
      omega
    rw [hts, List.cons_append, List.dropWhile_cons]
    simp only [show isspace '-' = false from rfl, Bool.false_eq_true, if_false, true_or,
      if_true, htw.1, htw.2, hne, hv]
    rw [if_neg (not_lt.mpr hmin), if_neg (not_lt.mpr hmax)]
  · have hts : to_string n = d0 :: ds := by simp [to_string, hn, hds]
    have hv : ((digitsVal (natToStr n.natAbs) : Nat) : Int) = n := by
      rw [hval]
      omega
    have hbody : d0 :: (ds ++ t) = natToStr n.natAbs ++ t := by rw [hds]; rfl
    rw [hts, List.cons_append, List.dropWhile_cons]
    simp only [hsp.2.2.2.2, Bool.false_eq_true, if_false, hsp.2.2.1, hsp.2.2.2.1, or_self]
    rw [hbody]
    simp only [htw.1, htw.2, hne, hv, if_false]
    rw [if_neg (not_lt.mpr hmin), if_neg (not_lt.mpr hmax)]

/-! ## Facts about salts and digests -/

theorem mem_generateSalt (dist : Nat → Fin 10) (c : Char) (h : c ∈ generateSalt dist) :
    isdigit c = true ∨ c = '-' := by
  have key : ∀ (is : List Nat) (init : Str),
      (∀ x ∈ init, isdigit x = true ∨ x = '-') →
      ∀ x ∈ is.foldl (fun salt i => salt ++ to_string ((dist i).val : Int)) init,
        isdigit x = true ∨ x = '-' := by
    intro is
    induction is with
    | nil => intro init hinit x hx; exact hinit x hx
    | cons i is ih =>
      intro init hinit x hx
      rw [List.foldl_cons] at hx
      refine ih _ ?_ x hx
      intro y hy
      rcases List.mem_append.mp hy with hy | hy
      · exact hinit y hy
      · exact mem_to_string _ y hy
  exact key _ [] (fun x hx => absurd hx (List.not_mem_nil _)) c h

theorem generateSalt_no_colon (dist : Nat → Fin 10) : ':' ∉ generateSalt dist := by
  intro h
  rcases mem_generateSalt dist _ h with h | h
  · exact (isdigit_not_special _ h).1 rfl
  · exact absurd h (by decide)

theorem generateSalt_no_newline (dist : Nat → Fin 10) : '\n' ∉ generateSalt dist := by
  intro h
  rcases mem_generateSalt dist _ h with h | h
  · exact (isdigit_not_special _ h).2.1 rfl
  · exact absurd h (by decide)

theorem HexDigest.ne_nil {md5 : Str → Str} (h : HexDigest md5) (m : Str) : md5 m ≠ [] := by
  intro hm
  have := (h m).1
  rw [hm] at this
  simp at this

theorem HexDigest.no_colon {md5 : Str → Str} (h : HexDigest md5) (m : Str) : ':' ∉ md5 m := by
  intro hm
  have := (h m).2 _ hm
  revert this
  decide

theorem HexDigest.no_newline {md5 : Str → Str} (h : HexDigest md5) (m : Str) :
    '\n' ∉ md5 m := by
  intro hm
  have := (h m).2 _ hm
  revert this
  decide

theorem toyDigest_hex : HexDigest toyDigest := by
  intro m
  refine ⟨by simp [toyDigest], ?_⟩
  intro c hc
  simp only [toyDigest, List.mem_map, List.mem_range] at hc
  obtain ⟨i, _, hi⟩ := hc
  rw [← hi]
  have hlt : (m.map Char.toNat).sum / 16 ^ i % 16 < 16 := Nat.mod_lt _ (by decide)
  generalize (m.map Char.toNat).sum / 16 ^ i % 16 = r at hlt
  interval_cases r <;> decide

theorem hexDigit_mem (x : Nat) : hexDigits.getD (x % 16) '0' ∈ hexDigits := by
  have hlt : x % 16 < 16 := Nat.mod_lt _ (by decide)
  generalize x % 16 = r at hlt
  interval_cases r <;> decide

theorem mem_hexByte (b : Nat) (c : Char) (h : c ∈ hexByte b) : c ∈ hexDigits := by
  simp only [hexByte, List.mem_cons, List.mem_singleton, List.not_mem_nil, or_false] at h
  rcases h with h | h <;> rw [h] <;> exact hexDigit_mem _

theorem mem_hexWord (w : Nat) (c : Char) (h : c ∈ hexWord w) : c ∈ hexDigits := by
  simp only [hexWord, List.mem_append] at h
  rcases h with ((h | h) | h) | h <;> exact mem_hexByte _ c h

/-- The values of the digest function `md5` are 32 hexadecimal digits. -/
theorem md5_hex : HexDigest md5 := by
  intro m
  constructor
  · simp [md5, hexWord, hexByte]
  · intro c hc
    simp only [md5, List.mem_append] at hc
    rcases hc with ((h | h) | h) | h <;> exact mem_hexWord _ c h

set_option maxRecDepth 100000 in
/-- The digest function on the test string of the program and on the empty
message: the values of MD5. -/
theorem md5_test_vectors :
    md5 MD5_TEST_STRING = "ce114e4501d2f4e2dcea3e17b546f339".toList ∧
    md5 [] = "d41d8cd98f00b204e9800998ecf8427e".toList := by
  decide

theorem hexStrings_finite :
    Set.Finite {l : Str | l.length = 32 ∧ ∀ c ∈ l, c ∈ hexDigits} := by
  have hfin : Set.Finite {l : List {c : Char // c ∈ hexDigits} | l.length = 32} :=
    List.finite_length_eq _ _
  refine (hfin.image (List.map Subtype.val)).subset ?_
  rintro l ⟨hlen, hmem⟩
  refine ⟨l.pmap (fun c hc => ⟨c, hc⟩) hmem, ?_, ?_⟩
  · simp [hlen]
  · simp [List.map_pmap]

/-- A digest function with values of 32 hexadecimal digits gives the same
digest to two different passwords, whatever the salt. -/
theorem digest_collision (md5 : Str → Str) (h : HexDigest md5) (salt : Str) :
    ∃ p q : Str, q ≠ p ∧ md5 (q ++ salt) = md5 (p ++ salt) := by
  by_contra hno
  have hinj : Function.Injective (fun n : Nat => md5 (List.replicate n 'a' ++ salt)) := by
    intro n m hnm
    by_contra hne
    apply hno
    refine ⟨List.replicate m 'a', List.replicate n 'a', ?_, hnm⟩
    intro hx
    apply hne
    have := congrArg List.length hx
    simpa using this
  have hinf := Set.infinite_range_of_injective hinj
  apply hinf
  refine hexStrings_finite.subset ?_
  rintro _ ⟨n, rfl⟩
  exact h _

/-! ## Facts about the credential store -/

theorem createUser_new (md5 : Str → Str) (dist : Nat → Fin 10) (u p : Str) (c : Int)
    (s : CredStore) (h : userExists u s = false) :
    createUser md5 dist u p c s =
      (true,
        { saltFile := some (s.saltFile.getD [] ++ ((u ++ ':' :: generateSalt dist) ++ ['\n']))
          shadowFile := some (s.shadowFile.getD [] ++
            ((u ++ ':' :: (md5 (p ++ generateSalt dist) ++ ':' :: to_string c)) ++ ['\n'])) }) := by
  simp [createUser, h, appendFile]

theorem createUser_old (md5 : Str → Str) (dist : Nat → Fin 10) (u p : Str) (c : Int)
    (s : CredStore) (h : userExists u s = true) :
    createUser md5 dist u p c s = (false, s) := by
  simp [createUser, h]

theorem extractSalt_append (u : Str) (L R : List Str)
    (h : ∀ l ∈ L, hasUserPrefix u l = false) :
    extractSalt u (L ++ R) = extractSalt u R := by
  induction L with
  | nil => rfl
  | cons l L ih =>
    have hl := h l (List.mem_cons_self _ _)
    rw [List.cons_append, extractSalt, hl]
    simp only [Bool.false_eq_true, if_false]
    exact ih (fun x hx => h x (List.mem_cons_of_mem _ hx))

theorem matchShadow_append (uninit : Int) (u H : Str) (L R : List Str)
    (h : ∀ l ∈ L, ¬ (storedUsername l = u ∧ storedHash l = H)) :
    matchShadow uninit u H (L ++ R) = matchShadow uninit u H R := by
  induction L with
  | nil => rfl
  | cons l L ih =>
    have hl := h l (List.mem_cons_self _ _)
    rw [List.cons_append, matchShadow, if_neg hl]
    exact ih (fun x hx => h x (List.mem_cons_of_mem _ hx))

theorem matchShadow_none (uninit : Int) (u H : Str) (L : List Str)
    (h : ∀ l ∈ L, ¬ (storedUsername l = u ∧ storedHash l = H)) :
    matchShadow uninit u H L = none := by
  have := matchShadow_append uninit u H L [] h
  rw [List.append_nil] at this
  rw [this]
  rfl

theorem userExists_false_iff (u : Str) (s : CredStore) :
    userExists u s = false ↔ ∀ l ∈ getlines (s.saltFile.getD []), hasUserPrefix u l = false := by
  simp [userExists]

theorem userExists_true_iff (u : Str) (s : CredStore) :
    userExists u s = true ↔ ∃ l ∈ getlines (s.saltFile.getD []), hasUserPrefix u l = true := by
  simp [userExists]

/-- The fields `authenticateUser` reads from a line `username:digest:clearance`. -/
theorem shadow_line_fields (uninit : Int) (u H : Str) (c : Int) (hu : ':' ∉ u) (hH : ':' ∉ H) :
    storedUsername (u ++ ':' :: (H ++ ':' :: to_string c)) = u ∧
    storedHash (u ++ ':' :: (H ++ ':' :: to_string c)) = H ∧
    (INT_MIN ≤ c → c ≤ INT_MAX →
      storedClearance uninit (u ++ ':' :: (H ++ ':' :: to_string c)) = c) := by
  refine ⟨storedUsername_append u _ hu, ?_, ?_⟩
  · unfold storedHash
    rw [afterField_append u _ hu]
    exact storedUsername_append H _ hH
  · intro hmin hmax
    unfold storedClearance
    rw [afterField_append u _ hu]
    simp only [Option.bind]
    rw [afterField_append H _ hH]
    have := scanInt_to_string [] [] c (by simp) hmin hmax (by simp)
    simp only [List.nil_append, List.append_nil] at this
    simp only [this]

theorem drop_prefix (u r : Str) : (u ++ ':' :: r).drop (u.length + 1) = r := by
  induction u with
  | nil => rfl
  | cons c u ih => simp [ih]

/-- The lines of a file made of complete lines after one more line is appended. -/
theorem getlines_append_line (file line : Str) (hf : endsLine file = true)
    (hl : '\n' ∉ line) : getlines (file ++ (line ++ ['\n'])) = getlines file ++ [line] := by
  rw [getlines_append _ _ hf, getlines_single _ hl]

theorem not_exists_of_created (md5 : Str → Str) (dist : Nat → Fin 10) (u p : Str) (c : Int)
    (s : CredStore) (h : (createUser md5 dist u p c s).1 = true) : userExists u s = false := by
  cases hx : userExists u s with
  | false => rfl
  | true =>
    rw [createUser_old md5 dist u p c s hx] at h
    exact absurd h (by simp)

/-- The lines of the salt file after `createUser` has registered a user. -/
theorem salt_lines_after_create (md5 : Str → Str) (dist : Nat → Fin 10) (u p : Str) (c : Int)
    (s : CredStore) (hu : '\n' ∉ u) (hsalt : endsLine (s.saltFile.getD []) = true)
    (hnew : userExists u s = false) :
    getlines ((createUser md5 dist u p c s).2.saltFile.getD []) =
      getlines (s.saltFile.getD []) ++ [u ++ ':' :: generateSalt dist] := by
  rw [createUser_new md5 dist u p c s hnew]
  have hline : '\n' ∉ u ++ ':' :: generateSalt dist := by
    simp only [List.mem_append, List.mem_cons, not_or]
    exact ⟨hu, by decide, generateSalt_no_newline dist⟩
  exact getlines_append_line _ _ hsalt hline

/-- A user registered by `createUser` exists afterwards, when the name has no
newline and the salt file was made of complete lines. -/
theorem userExists_after_create (md5 : Str → Str) (dist : Nat → Fin 10) (u p : Str) (c : Int)
    (s : CredStore) (hu : '\n' ∉ u) (hsalt : endsLine (s.saltFile.getD []) = true)
    (hnew : userExists u s = false) :
    userExists u (createUser md5 dist u p c s).2 = true := by
  rw [userExists_true_iff, salt_lines_after_create md5 dist u p c s hu hsalt hnew]
  exact ⟨u ++ ':' :: generateSalt dist, by simp, (hasUserPrefix_iff _ _).mpr ⟨_, rfl⟩⟩

/-- What `authenticateUser` answers right after `createUser` has registered a
user with a valid name that was in neither file, both files being made of
complete lines: the call succeeds exactly when the digest of the offered
password with the new salt is the recorded digest, and the clearance is what
the new shadow line parses to. -/
theorem authenticate_after_create (md5 : Str → Str) (dist : Nat → Fin 10) (uninit : Int)
    (u p q : Str) (c : Int) (s : CredStore)
    (hmd5 : HexDigest md5) (hu : validName u)
    (hsalt : endsLine (s.saltFile.getD []) = true)
    (hshadow : endsLine (s.shadowFile.getD []) = true)
    (hfresh : u ∉ usernames s.shadowFile) (hnew : userExists u s = false) :
    authenticateUser md5 uninit u q (createUser md5 dist u p c s).2 =
      if md5 (q ++ generateSalt dist) = md5 (p ++ generateSalt dist) then
        some (storedClearance uninit
          (u ++ ':' :: (md5 (p ++ generateSalt dist) ++ ':' :: to_string c)))
      else none := by
  rw [createUser_new md5 dist u p c s hnew]
  have hS := generateSalt_no_newline dist
  have hH := hmd5.no_newline (p ++ generateSalt dist)
  have hHc := hmd5.no_colon (p ++ generateSalt dist)
  have hline1 : '\n' ∉ u ++ ':' :: generateSalt dist := by
    simp only [List.mem_append, List.mem_cons, not_or]
    exact ⟨hu.2, by decide, hS⟩
  have hline2 : '\n' ∉ u ++ ':' :: (md5 (p ++ generateSalt dist) ++ ':' :: to_string c) := by
    simp only [List.mem_append, List.mem_cons, not_or]
    exact ⟨hu.2, by decide, hH, by decide, to_string_no_newline c⟩
  have hl1 := getlines_append_line (s.saltFile.getD []) _ hsalt hline1
  have hl2 := getlines_append_line (s.shadowFile.getD []) _ hshadow hline2
  have hold := (userExists_false_iff u s).mp hnew
  have hex : userExists u
      { saltFile := some (s.saltFile.getD [] ++ ((u ++ ':' :: generateSalt dist) ++ ['\n']))
        shadowFile := some (s.shadowFile.getD [] ++
          ((u ++ ':' :: (md5 (p ++ generateSalt dist) ++ ':' :: to_string c)) ++ ['\n'])) }
      = true := by
    rw [userExists_true_iff]
    refine ⟨u ++ ':' :: generateSalt dist, ?_, (hasUserPrefix_iff _ _).mpr ⟨_, rfl⟩⟩
    simp only [Option.getD_some, hl1]
    simp
  have hnomatch : ∀ l ∈ getlines (s.shadowFile.getD []),
      ¬ (storedUsername l = u ∧ storedHash l = md5 (q ++ generateSalt dist)) := by
    intro l hl hm
    exact hfresh (List.mem_map.mpr ⟨l, hl, hm.1⟩)
  have hfields := shadow_line_fields uninit u (md5 (p ++ generateSalt dist)) c hu.1 hHc
  unfold authenticateUser
  simp only [hex, if_true, hl1, hl2]
  have hsalt2 : extractSalt u [u ++ ':' :: generateSalt dist] = generateSalt dist := by
    rw [extractSalt, if_pos ((hasUserPrefix_iff _ _).mpr ⟨_, rfl⟩), drop_prefix]
  rw [extractSalt_append u _ _ hold, hsalt2, matchShadow_append uninit u _ _ _ hnomatch,
    matchShadow, hfields.1, hfields.2.1]
  by_cases hq : md5 (q ++ generateSalt dist) = md5 (p ++ generateSalt dist)
  · rw [if_pos hq, if_pos ⟨rfl, hq.symm⟩]
  · rw [if_neg hq, if_neg (fun hx => hq hx.2.symm)]
    rfl

/-- A username that holds the delimiter or a newline never authenticates. -/
theorem authenticate_invalid_name (md5 : Str → Str) (uninit : Int) (u q : Str)
    (s : CredStore) (hu : ¬ validName u) : authenticateUser md5 uninit u q s = none := by
  unfold authenticateUser
  cases hs1 : s.saltFile with
  | none => rfl
  | some saltText =>
    cases hs2 : s.shadowFile with
    | none => rfl
    | some shadowText =>
      simp only
      by_cases hex : userExists u s = true
      · rw [if_pos hex]
        apply matchShadow_none
        intro l _ hm
        obtain ⟨l0, hl0, hpre⟩ := (userExists_true_iff u s).mp hex
        obtain ⟨r, hr⟩ := (hasUserPrefix_iff u l0).mp hpre
        have hnl : '\n' ∉ u := by
          intro hx
          refine newline_not_mem_getlines _ l0 hl0 ?_
          rw [hr]
          exact List.mem_append_left _ hx
        have hcol : ':' ∈ u := by
          by_contra hx
          exact hu ⟨hx, hnl⟩
        rw [← hm.1] at hcol
        exact colon_not_mem_storedUsername l hcol
      · rw [if_neg hex]

/-! ## Access control (C1) -/

/-- C1, counterexample: the record "secret.txt" has classification 3 and its
content is the text of the access-denied message for clearance 2; `readFile`
at clearance 2 is denied, and the string it returns is the stored content. -/
theorem C1_counterexample :
    find "secret.txt".toList
        [("secret.txt".toList, ⟨"alice".toList, 3, accessDeniedMessage 2⟩)]
      = some ⟨"alice".toList, 3, accessDeniedMessage 2⟩ ∧
    ¬ ((2 : Int) ≥ 3) ∧
    readFile "secret.txt".toList 2
        [("secret.txt".toList, ⟨"alice".toList, 3, accessDeniedMessage 2⟩)]
      = accessDeniedMessage 2 := by
  decide

/-- C1, amended: for a filename present in the store, `writeFile` and
`appendToFile` return true exactly when the clearance is at least the
classification; `readFile` returns the stored content when the clearance is at
least the classification and the access-denied message otherwise, so that its
result is the stored content exactly when the clearance suffices or the content
is itself that message. -/
theorem C1_access_control (m : FileStore) (filename content : Str) (clearance : Int)
    (e : FileEntry) (h : find filename m = some e) :
    ((writeFile filename content clearance m).1 = true ↔ clearance ≥ e.classification) ∧
    ((appendToFile filename content clearance m).1 = true ↔ clearance ≥ e.classification) ∧
    (clearance ≥ e.classification → readFile filename clearance m = e.content) ∧
    (¬ clearance ≥ e.classification →
      readFile filename clearance m = accessDeniedMessage clearance) ∧
    (readFile filename clearance m = e.content ↔
      (clearance ≥ e.classification ∨ e.content = accessDeniedMessage clearance)) := by
  by_cases hc : clearance < e.classification
  · have hn : ¬ clearance ≥ e.classification := not_le.mpr hc
    simp only [writeFile, appendToFile, readFile, h, if_pos hc, hn]
    refine ⟨by simp, by simp, by simp, by simp, ?_⟩
    constructor
    · intro hx
      exact Or.inr hx.symm
    · intro hx
      rcases hx with hx | hx
      · exact absurd hx (by simp)
      · exact hx.symm
  · have hn : clearance ≥ e.classification := not_lt.mp hc
    simp [writeFile, appendToFile, readFile, h, if_neg hc, hn]

/-- C1, witness: "secret.txt" with classification 3 is denied at clearance 2 and
read at clearance 3, where the clearance equals the classification. -/
theorem C1_access_control_witness :
    readFile "secret.txt".toList 2
        [("secret.txt".toList, ⟨"alice".toList, 3, "plans".toList⟩)]
      = accessDeniedMessage 2 ∧
    readFile "secret.txt".toList 3
        [("secret.txt".toList, ⟨"alice".toList, 3, "plans".toList⟩)]
      = "plans".toList := by
  have h2 := C1_access_control
    [("secret.txt".toList, ⟨"alice".toList, 3, "plans".toList⟩)]
    "secret.txt".toList [] 2 ⟨"alice".toList, 3, "plans".toList⟩ (by decide)
  have h3 := C1_access_control
    [("secret.txt".toList, ⟨"alice".toList, 3, "plans".toList⟩)]
    "secret.txt".toList [] 3 ⟨"alice".toList, 3, "plans".toList⟩ (by decide)
  exact ⟨h2.2.2.2.1 (by decide), h3.2.2.1 (by decide)⟩

/-! ## File creation (C9) -/

/-- C9: `createFile` returns false and leaves the store as it is when the
filename is present; otherwise it returns true and the new store is the old one
with exactly one more record, for that filename, holding the given owner, the
given classification and empty content, every other lookup being unchanged (and
the map stays in key order). No clearance takes part in the call. -/
theorem C9_createFile (m : FileStore) (filename owner : Str) (classification : Int) :
    ((find filename m).isSome = true →
      createFile filename owner classification m = (false, m)) ∧
    (find filename m = none →
      (createFile filename owner classification m).1 = true ∧
      List.Perm (createFile filename owner classification m).2
        ((filename, ⟨owner, classification, []⟩) :: m) ∧
      find filename (createFile filename owner classification m).2
        = some ⟨owner, classification, []⟩ ∧
      (∀ g, g ≠ filename →
        find g (createFile filename owner classification m).2 = find g m) ∧
      (m.WF → (createFile filename owner classification m).2.WF)) := by
  constructor
  · intro h
    simp [createFile, h]
  · intro h
    have hc : createFile filename owner classification m
        = (true, assign filename ⟨owner, classification, []⟩ m) := by
      simp [createFile, h]
    rw [hc]
    refine ⟨rfl, assign_perm _ _ _ h, ?_, ?_, ?_⟩
    · simp [find_assign]
    · intro g hg
      simp [find_assign, hg]
    · intro hwf
      exact assign_WF _ _ _ hwf

/-- C9, witness: creating "b" between "a" and "c", and creating "a" again. -/
theorem C9_createFile_witness :
    createFile "a".toList "eve".toList 0
        [("a".toList, ⟨"bob".toList, 1, "x".toList⟩), ("c".toList, ⟨"bob".toList, 2, []⟩)]
      = (false,
        [("a".toList, ⟨"bob".toList, 1, "x".toList⟩), ("c".toList, ⟨"bob".toList, 2, []⟩)]) ∧
    find "b".toList (createFile "b".toList "eve".toList 3
        [("a".toList, ⟨"bob".toList, 1, "x".toList⟩), ("c".toList, ⟨"bob".toList, 2, []⟩)]).2
      = some ⟨"eve".toList, 3, []⟩ :=
  ⟨(C9_createFile
      [("a".toList, ⟨"bob".toList, 1, "x".toList⟩), ("c".toList, ⟨"bob".toList, 2, []⟩)]
      "a".toList "eve".toList 0).1 (by decide),
   ((C9_createFile
      [("a".toList, ⟨"bob".toList, 1, "x".toList⟩), ("c".toList, ⟨"bob".toList, 2, []⟩)]
      "b".toList "eve".toList 3).2 (by decide)).2.2.1⟩

/-! ## Records are stable under the mutating operations (C10) -/

/-- Lookups after one operation: a record that was present is still present,
with the same owner and classification, and a changed content only after a
permitted append or write on its filename. -/
theorem run_record (m : FileStore) (op : FileOp) (g : Str) (e : FileEntry)
    (h : find g m = some e) :
    ∃ e2, find g (op.run m).2 = some e2 ∧ e2.owner = e.owner ∧
      e2.classification = e.classification ∧
      (e2.content ≠ e.content →
        ∃ content clearance,
          (op = .append g content clearance ∨ op = .write g content clearance) ∧
          clearance ≥ e.classification) := by
  cases op with
  | create f o c =>
    simp only [FileOp.run, createFile]
    by_cases hf : (find f m).isSome = true
    · rw [if_pos hf]
      exact ⟨e, h, rfl, rfl, fun hne => absurd rfl hne⟩
    · rw [if_neg hf]
      have hgf : g ≠ f := by
        intro hgf
        rw [hgf] at h
        simp [h] at hf
      refine ⟨e, ?_, rfl, rfl, fun hne => absurd rfl hne⟩
      rw [find_assign, if_neg hgf, h]
  | append f c k =>
    simp only [FileOp.run, appendToFile]
    cases hf : find f m with
    | none => exact ⟨e, h, rfl, rfl, fun hne => absurd rfl hne⟩
    | some e0 =>
      by_cases hk : k < e0.classification
      · dsimp only
        rw [if_pos hk]
        exact ⟨e, h, rfl, rfl, fun hne => absurd rfl hne⟩
      · dsimp only
        rw [if_neg hk]
        by_cases hgf : g = f
        · subst hgf
          rw [h] at hf
          cases hf
          refine ⟨{ e with content := e.content ++ c }, ?_, rfl, rfl, ?_⟩
          · rw [find_modify, if_pos rfl, h]
            rfl
          · intro _
            exact ⟨c, k, Or.inl rfl, not_lt.mp hk⟩
        · refine ⟨e, ?_, rfl, rfl, fun hne => absurd rfl hne⟩
          rw [find_modify, if_neg hgf, h]
  | write f c k =>
    simp only [FileOp.run, writeFile]
    cases hf : find f m with
    | none => exact ⟨e, h, rfl, rfl, fun hne => absurd rfl hne⟩
    | some e0 =>
      by_cases hk : k < e0.classification
      · dsimp only
        rw [if_pos hk]
        exact ⟨e, h, rfl, rfl, fun hne => absurd rfl hne⟩
      · dsimp only
        rw [if_neg hk]
        by_cases hgf : g = f
        · subst hgf
          rw [h] at hf
          cases hf
          refine ⟨{ e with content := c }, ?_, rfl, rfl, ?_⟩
          · rw [find_modify, if_pos rfl, h]
            rfl
          · intro _
            exact ⟨c, k, Or.inr rfl, not_lt.mp hk⟩
        · refine ⟨e, ?_, rfl, rfl, fun hne => absurd rfl hne⟩
          rw [find_modify, if_neg hgf, h]

/-- An operation that returns false leaves the file store as it was. -/
theorem run_failed (m : FileStore) (op : FileOp) (h : (op.run m).1 = false) :
    (op.run m).2 = m := by
  cases op with
  | create f o c =>
    simp only [FileOp.run, createFile] at h ⊢
    by_cases hf : (find f m).isSome = true
    · rw [if_pos hf]
    · rw [if_neg hf] at h
      exact absurd h (by simp)
  | append f c k =>
    simp only [FileOp.run, appendToFile] at h ⊢
    cases hf : find f m with
    | none => rfl
    | some e0 =>
      rw [hf] at h
      by_cases hk : k < e0.classification
      · dsimp only
        rw [if_pos hk]
      · dsimp only at h
        rw [if_neg hk] at h
        exact absurd h (by simp)
  | write f c k =>
    simp only [FileOp.run, writeFile] at h ⊢
    cases hf : find f m with
    | none => rfl
    | some e0 =>
      rw [hf] at h
      by_cases hk : k < e0.classification
      · dsimp only
        rw [if_pos hk]
      · dsimp only at h
        rw [if_neg hk] at h
        exact absurd h (by simp)

/-- C10: after one call of `createFile`, `appendToFile` or `writeFile`, with
arbitrary arguments, every record that was present is still present with the
same owner and the same classification; its content is different only if the
call was `appendToFile` or `writeFile` on that filename with a clearance at
least its classification; and a call that returns false (existing file for
`createFile`, missing file or access denied for the other two) leaves the whole
store unchanged. -/
theorem C10_records_stable (m : FileStore) (op : FileOp) :
    ((op.run m).1 = false → (op.run m).2 = m) ∧
    (∀ (g : Str) (e : FileEntry), find g m = some e →
      ∃ e2, find g (op.run m).2 = some e2 ∧ e2.owner = e.owner ∧
        e2.classification = e.classification ∧
        (e2.content ≠ e.content →
          ∃ content clearance,
            (op = .append g content clearance ∨ op = .write g content clearance) ∧
            clearance ≥ e.classification)) ∧
    (∀ (filename content : Str) (clearance : Int),
      (op = .append filename content clearance ∨ op = .write filename content clearance) →
      (find filename m = none ∨
        ∃ e, find filename m = some e ∧ clearance < e.classification) →
      (op.run m).2 = m) :=
  ⟨run_failed m op, run_record m op, by
    intro f c k hop hcase
    apply run_failed
    rcases hop with hop | hop <;> rcases hcase with hcase | ⟨e, he, hlt⟩ <;>
      simp [hop, FileOp.run, appendToFile, writeFile, *]⟩

/-- C10, witness: a denied write to "a" (classification 1, clearance 0) changes
nothing, and the record "a" keeps its owner and classification after an append
at clearance 1. -/
theorem C10_records_stable_witness :
    (FileOp.run (.write "a".toList "new".toList 0)
        [("a".toList, ⟨"bob".toList, 1, "x".toList⟩)]).2
      = [("a".toList, ⟨"bob".toList, 1, "x".toList⟩)] ∧
    ∃ e2, find "a".toList (FileOp.run (.append "a".toList "y".toList 1)
        [("a".toList, ⟨"bob".toList, 1, "x".toList⟩)]).2 = some e2 ∧
      e2.owner = "bob".toList ∧ e2.classification = 1 :=
  ⟨(C10_records_stable [("a".toList, ⟨"bob".toList, 1, "x".toList⟩)]
      (.write "a".toList "new".toList 0)).1 (by decide),
   let ⟨e2, h1, h2, h3, _⟩ :=
     (C10_records_stable [("a".toList, ⟨"bob".toList, 1, "x".toList⟩)]
       (.append "a".toList "y".toList 1)).2.1 "a".toList ⟨"bob".toList, 1, "x".toList⟩
       (by decide)
   ⟨e2, h1, h2, h3⟩⟩

/-! ## Registration followed by authentication (C2) -/

/-- C2, counterexample: on the empty credential store the username "a:b" does
not exist and `createUser` registers it with clearance 2, yet `authenticateUser`
with the same password returns false: the shadow line is split at the first
delimiter, so the stored username is read as "a". -/
theorem C2_counterexample :
    userExists "a:b".toList emptyStore = false ∧
    createUser toyDigest (fun _ => 0) "a:b".toList "password1".toList 2 emptyStore =
      (true,
        ⟨some "a:b:00000000\n".toList,
         some "a:b:42500000000000000000000000000000:2\n".toList⟩) ∧
    authenticateUser toyDigest 0 "a:b".toList "password1".toList
      (createUser toyDigest (fun _ => 0) "a:b".toList "password1".toList 2 emptyStore).2
      = none := by
  decide

/-- C2, amended: for a username without delimiter and newline, any password and
a clearance in [0,3], on a credential store whose two files are made of complete
lines and in which the username is in neither file, `createUser` returns true
and `authenticateUser` with the same password on the resulting store returns
true with the session clearance set to the clearance given at creation. -/
theorem C2_create_then_authenticate (md5 : Str → Str) (dist : Nat → Fin 10) (uninit : Int)
    (username password : Str) (clearance : Int) (store : CredStore)
    (hmd5 : HexDigest md5) (hname : validName username)
    (hrange : 0 ≤ clearance ∧ clearance ≤ 3)
    (hsalt : endsLine (store.saltFile.getD []) = true)
    (hshadow : endsLine (store.shadowFile.getD []) = true)
    (hfresh : username ∉ usernames store.shadowFile)
    (hnew : userExists username store = false) :
    (createUser md5 dist username password clearance store).1 = true ∧
    authenticateUser md5 uninit username password
      (createUser md5 dist username password clearance store).2 = some clearance := by
  constructor
  · rw [createUser_new md5 dist username password clearance store hnew]
  · rw [authenticate_after_create md5 dist uninit username password password clearance store
      hmd5 hname hsalt hshadow hfresh hnew, if_pos rfl]
    have hmin : INT_MIN ≤ clearance := le_trans (by decide) hrange.1
    have hmax : clearance ≤ INT_MAX := le_trans hrange.2 (by decide)
    rw [(shadow_line_fields uninit username _ clearance hname.1 (hmd5.no_colon _)).2.2
      hmin hmax]

/-- C2, witness: "alice" registers with clearance 2 in a store that holds "bob"
and then authenticates with clearance 2. -/
theorem C2_create_then_authenticate_witness :
    authenticateUser toyDigest 0 "alice".toList "password1".toList
      (createUser toyDigest (fun _ => 7) "alice".toList "password1".toList 2
        ⟨some "bob:12345678\n".toList,
         some "bob:0123456789abcdef0123456789abcdef:1\n".toList⟩).2 = some 2 :=
  (C2_create_then_authenticate toyDigest (fun _ => 7) 0 "alice".toList "password1".toList 2
    ⟨some "bob:12345678\n".toList, some "bob:0123456789abcdef0123456789abcdef:1\n".toList⟩
    toyDigest_hex (by decide) (by decide) (by decide) (by decide) (by decide) (by decide)).2

/-- The same registration fails to authenticate when the salt file does not end
with a newline: the new record is glued to the last line. -/
theorem create_on_incomplete_line :
    userExists "alice".toList ⟨some "bob:12345678".toList, some []⟩ = false ∧
    (createUser toyDigest (fun _ => 0) "alice".toList "password1".toList 2
      ⟨some "bob:12345678".toList, some []⟩).2.saltFile
      = some "bob:12345678alice:00000000\n".toList ∧
    authenticateUser toyDigest 0 "alice".toList "password1".toList
      (createUser toyDigest (fun _ => 0) "alice".toList "password1".toList 2
        ⟨some "bob:12345678".toList, some []⟩).2 = none := by
  decide

/-- The clearance returned is not the one given at creation when the shadow file
already holds a line for the username that the salt file does not know. -/
theorem create_on_stale_shadow :
    userExists "alice".toList
      ⟨some [], some "alice:42500000000000000000000000000000:0\n".toList⟩ = false ∧
    (createUser toyDigest (fun _ => 0) "alice".toList "password1".toList 2
      ⟨some [], some "alice:42500000000000000000000000000000:0\n".toList⟩).1 = true ∧
    authenticateUser toyDigest 0 "alice".toList "password1".toList
      (createUser toyDigest (fun _ => 0) "alice".toList "password1".toList 2
        ⟨some [], some "alice:42500000000000000000000000000000:0\n".toList⟩).2 = some 0 := by
  decide

/-! ## Wrong passwords (C3) -/

theorem getlines_no_newline (l : Str) (h : '\n' ∉ l) (hne : l ≠ []) : getlines l = [l] := by
  induction l with
  | nil => exact absurd rfl hne
  | cons c l ih =>
    have hc : c ≠ '\n' := fun hc => h (hc ▸ List.mem_cons_self _ _)
    have hl : '\n' ∉ l := fun hl => h (List.mem_cons_of_mem _ hl)
    by_cases hnil : l = []
    · rw [hnil]
      exact getlines_cons_of_nil c [] hc rfl
    · exact getlines_cons_of_cons c l l [] hc (ih hl hnil)

/-- A text is a sequence of complete lines followed by a last piece without newline. -/
theorem split_last_line (A : Str) :
    ∃ A0 last, A = A0 ++ last ∧ endsLine A0 = true ∧ '\n' ∉ last := by
  induction A with
  | nil => exact ⟨[], [], rfl, rfl, List.not_mem_nil _⟩
  | cons c A ih =>
    obtain ⟨A0, last, hA, h0, hl⟩ := ih
    by_cases hnil : A0 = []
    · by_cases hc : c = '\n'
      · refine ⟨['\n'], last, ?_, rfl, hl⟩
        rw [hA, hnil, hc]
        rfl
      · refine ⟨[], c :: last, ?_, rfl, ?_⟩
        · rw [hA, hnil]
          rfl
        · intro hm
          rcases List.mem_cons.mp hm with hm | hm
          · exact hc hm.symm
          · exact hl hm
    · refine ⟨c :: A0, last, by rw [hA]; rfl, ?_, hl⟩
      have := endsLine_append [c] A0 hnil
      rw [List.singleton_append] at this
      rw [this, h0]

/-- The lines of a text, split as above, before and after a line is appended:
the appended line is glued to the last piece. -/
theorem getlines_split (A0 last line : Str) (h0 : endsLine A0 = true) (hl : '\n' ∉ last)
    (hline : '\n' ∉ line) :
    (∀ x ∈ getlines A0, x ∈ getlines (A0 ++ last)) ∧
    (last ≠ [] → last ∈ getlines (A0 ++ last)) ∧
    getlines ((A0 ++ last) ++ (line ++ ['\n'])) = getlines A0 ++ [last ++ line] := by
  refine ⟨?_, ?_, ?_⟩
  · intro x hx
    rw [getlines_append A0 last h0]
    exact List.mem_append_left _ hx
  · intro hne
    rw [getlines_append A0 last h0, getlines_no_newline last hl hne]
    exact List.mem_append_right _ (List.mem_singleton.mpr rfl)
  · have hjoin : '\n' ∉ last ++ line := by
      intro hm
      rcases List.mem_append.mp hm with hm | hm
      · exact hl hm
      · exact hline hm
    have hassoc : (A0 ++ last) ++ (line ++ ['\n']) = A0 ++ ((last ++ line) ++ ['\n']) := by
      simp
    rw [hassoc, getlines_append A0 _ h0, getlines_single _ hjoin]

/-- A line glued behind a non-empty piece that does not carry the username
does not carry it either. -/
theorem storedUsername_glued (u last rest : Str) (hu : ':' ∉ u) (hne : last ≠ [])
    (hlast : ':' ∈ last → storedUsername last ≠ u) :
    storedUsername (last ++ (u ++ ':' :: rest)) ≠ u := by
  by_cases hc : ':' ∈ last
  · rw [storedUsername_append_of_mem last _ hc]
    exact hlast hc
  · rw [storedUsername_append_of_not_mem last _ hc, storedUsername_append u rest hu]
    intro h
    have hlen := congrArg List.length h
    rw [List.length_append] at hlen
    have : last.length = 0 := by omega
    exact hne (List.length_eq_zero.mp this)

/-- After `createUser` has registered a user with a valid name that the shadow
file did not hold, `authenticateUser` refuses every password whose digest with
the new salt is not the recorded digest, whatever the form of the two files. -/
theorem authenticate_wrong_digest (md5 : Str → Str) (dist : Nat → Fin 10) (uninit : Int)
    (u p q : Str) (c : Int) (s : CredStore)
    (hmd5 : HexDigest md5) (hu : validName u)
    (hfresh : u ∉ usernames s.shadowFile) (hnew : userExists u s = false)
    (hdigest : md5 (q ++ generateSalt dist) ≠ md5 (p ++ generateSalt dist)) :
    authenticateUser md5 uninit u q (createUser md5 dist u p c s).2 = none := by
  rw [createUser_new md5 dist u p c s hnew]
  obtain ⟨A0, la, hA, hA0, hla⟩ := split_last_line (s.saltFile.getD [])
  obtain ⟨B0, lb, hB, hB0, hlb⟩ := split_last_line (s.shadowFile.getD [])
  have hHc := hmd5.no_colon (p ++ generateSalt dist)
  have hline1 : '\n' ∉ u ++ ':' :: generateSalt dist := by
    simp only [List.mem_append, List.mem_cons, not_or]
    exact ⟨hu.2, by decide, generateSalt_no_newline dist⟩
  have hline2 : '\n' ∉ u ++ ':' :: (md5 (p ++ generateSalt dist) ++ ':' :: to_string c) := by
    simp only [List.mem_append, List.mem_cons, not_or]
    exact ⟨hu.2, by decide, hmd5.no_newline _, by decide, to_string_no_newline c⟩
  have hs1 := getlines_split A0 la _ hA0 hla hline1
  have hs2 := getlines_split B0 lb _ hB0 hlb hline2
  rw [← hA] at hs1
  rw [← hB] at hs2
  have hold := (userExists_false_iff u s).mp hnew
  have hstale : ∀ l ∈ getlines (s.shadowFile.getD []), storedUsername l ≠ u := by
    intro l hl hlu
    exact hfresh (List.mem_map.mpr ⟨l, hl, hlu⟩)
  have hfields := shadow_line_fields uninit u (md5 (p ++ generateSalt dist)) c hu.1 hHc
  unfold authenticateUser
  simp only
  split_ifs with hex
  swap
  · rfl
  · -- the user is found: the salt file ended with a newline
    have hla0 : la = [] := by
      by_contra hne
      obtain ⟨l, hl, hpre⟩ := (userExists_true_iff _ _).mp hex
      simp only [Option.getD_some] at hl
      rw [hs1.2.2] at hl
      rcases List.mem_append.mp hl with hl | hl
      · have := hold l (hs1.1 l hl)
        rw [hpre] at this
        exact absurd this (by simp)
      · rw [List.mem_singleton.mp hl] at hpre
        have hlast : ':' ∈ la → storedUsername la ≠ u := by
          intro hcolon hx
          have hfalse := hold la (hs1.2.1 hne)
          rw [(hasUserPrefix_iff_stored u la hu.1).mpr ⟨hcolon, hx⟩] at hfalse
          exact absurd hfalse (by simp)
        exact storedUsername_glued u la _ hu.1 hne hlast
          ((hasUserPrefix_iff_stored u _ hu.1).mp hpre).2
    have hlines1 : getlines (s.saltFile.getD [] ++ ((u ++ ':' :: generateSalt dist) ++ ['\n']))
        = getlines A0 ++ [u ++ ':' :: generateSalt dist] := by
      rw [hs1.2.2, hla0]
      rfl
    have hold0 : ∀ l ∈ getlines A0, hasUserPrefix u l = false :=
      fun l hl => hold l (hs1.1 l hl)
    have hsalt2 : extractSalt u [u ++ ':' :: generateSalt dist] = generateSalt dist := by
      rw [extractSalt, if_pos ((hasUserPrefix_iff _ _).mpr ⟨_, rfl⟩), drop_prefix]
    rw [hlines1, extractSalt_append u _ _ hold0, hsalt2, hs2.2.2]
    apply matchShadow_none
    intro l hl hm
    rcases List.mem_append.mp hl with hl | hl
    · exact hstale l (hs2.1 l hl) hm.1
    · rw [List.mem_singleton.mp hl] at hm
      by_cases hlb0 : lb = []
      · rw [hlb0, List.nil_append, hfields.2.1] at hm
        exact hdigest hm.2.symm
      · exact storedUsername_glued u lb _ hu.1 hlb0 (fun _ => hstale lb (hs2.2.1 hlb0)) hm.1

set_option maxRecDepth 100000 in
/-- C3, counterexample: "alice" registers on the empty store with the password
`passwordA`; `passwordB` is a different password, and `authenticateUser`
accepts it with clearance 2, because MD5 gives the two passwords, each followed
by the stored salt, the same digest 1711e2389f74efb8defc2f8a766bd77b. -/
theorem C3_counterexample :
    passwordB ≠ passwordA ∧
    createUser md5 (fun _ => 0) "alice".toList passwordA 2 emptyStore =
      (true,
        ⟨some "alice:00000000\n".toList,
         some "alice:1711e2389f74efb8defc2f8a766bd77b:2\n".toList⟩) ∧
    md5 (passwordB ++ "00000000".toList) = "1711e2389f74efb8defc2f8a766bd77b".toList ∧
    authenticateUser md5 0 "alice".toList passwordB
      (createUser md5 (fun _ => 0) "alice".toList passwordA 2 emptyStore).2 = some 2 := by
  decide

/-- C3, amended: for every credential store whose shadow file does not hold the
username, after `createUser` has registered the user with password p (it
returned true), `authenticateUser` with any password q whose digest with the
user's salt differs from the digest of p with that salt returns false. -/
theorem C3_wrong_password (md5 : Str → Str) (dist : Nat → Fin 10) (uninit : Int)
    (username p q : Str) (clearance : Int) (store : CredStore)
    (hmd5 : HexDigest md5)
    (hfresh : username ∉ usernames store.shadowFile)
    (hcreated : (createUser md5 dist username p clearance store).1 = true)
    (hdigest : md5 (q ++ generateSalt dist) ≠ md5 (p ++ generateSalt dist)) :
    authenticateUser md5 uninit username q
      (createUser md5 dist username p clearance store).2 = none := by
  by_cases hname : validName username
  · have hnew := not_exists_of_created md5 dist username p clearance store hcreated
    exact authenticate_wrong_digest md5 dist uninit username p q clearance store
      hmd5 hname hfresh hnew hdigest
  · exact authenticate_invalid_name md5 uninit username q _ hname

set_option maxRecDepth 100000 in
/-- C3, witness: in a store that holds "bob", "alice" registers with
"password12" and is refused with "password21": the MD5 digests of the two
passwords with the salt 00000000 differ. -/
theorem C3_wrong_password_witness :
    authenticateUser md5 0 "alice".toList "password21".toList
      (createUser md5 (fun _ => 0) "alice".toList "password12".toList 2
        ⟨some "bob:12345678\n".toList,
         some "bob:5215be742aaa54f88528abce89b1089e:3\n".toList⟩).2 = none :=
  C3_wrong_password md5 (fun _ => 0) 0 "alice".toList "password12".toList
    "password21".toList 2
    ⟨some "bob:12345678\n".toList, some "bob:5215be742aaa54f88528abce89b1089e:3\n".toList⟩
    md5_hex (by decide) (by decide) (by decide)

set_option maxRecDepth 100000 in
/-- The condition on the shadow file is needed: when it already holds a line for
"alice" with the digest of "password21", that password is accepted after
"alice" has registered with "password12". -/
theorem wrong_password_on_stale_shadow :
    md5 ("password21".toList ++ "00000000".toList)
      ≠ md5 ("password12".toList ++ "00000000".toList) ∧
    (createUser md5 (fun _ => 0) "alice".toList "password12".toList 2
      ⟨some [], some "alice:485bd07ceb7023f78af4ac41e1ff74d8:0\n".toList⟩).1 = true ∧
    authenticateUser md5 0 "alice".toList "password21".toList
      (createUser md5 (fun _ => 0) "alice".toList "password12".toList 2
        ⟨some [], some "alice:485bd07ceb7023f78af4ac41e1ff74d8:0\n".toList⟩).2 = some 0 := by
  decide

/-- No digest function escapes this: whatever the function, as long as its
values are 32 hexadecimal digits, there are two different passwords such that a
user registered with the first is authenticated with the second. -/
theorem wrong_password_accepted (md5 : Str → Str) (hmd5 : HexDigest md5)
    (dist : Nat → Fin 10) (uninit : Int) :
    ∃ p q : Str, q ≠ p ∧
      authenticateUser md5 uninit "alice".toList q
        (createUser md5 dist "alice".toList p 2 emptyStore).2 = some 2 := by
  obtain ⟨p, q, hne, hcol⟩ := digest_collision md5 hmd5 (generateSalt dist)
  refine ⟨p, q, hne, ?_⟩
  rw [authenticate_after_create md5 dist uninit "alice".toList p q 2 emptyStore hmd5
    (by decide) (by decide) (by decide) (by decide) (by decide), if_pos hcol]
  rw [(shadow_line_fields uninit "alice".toList _ 2 (by decide) (hmd5.no_colon _)).2.2
    (by decide) (by decide)]

/-! ## Duplicate registration (C4) -/

/-- C4, counterexample: on the empty store, `createUser` succeeds for the
username made of "x", a newline and "y", and a second call with the same
username succeeds again and appends a second record. -/
theorem C4_counterexample :
    createUser toyDigest (fun _ => 0) "x\ny".toList "password1".toList 1 emptyStore =
      (true,
        ⟨some "x\ny:00000000\n".toList,
         some "x\ny:42500000000000000000000000000000:1\n".toList⟩) ∧
    createUser toyDigest (fun _ => 0) "x\ny".toList "password2".toList 2
      (createUser toyDigest (fun _ => 0) "x\ny".toList "password1".toList 1 emptyStore).2 =
      (true,
        ⟨some "x\ny:00000000\nx\ny:00000000\n".toList,
         some ("x\ny:42500000000000000000000000000000:1\n" ++
               "x\ny:52500000000000000000000000000000:2\n").toList⟩) := by
  decide

/-- C4, amended: for a username without newline and a credential store whose
salt file is made of complete lines, if `createUser` succeeded for the
username, a second `createUser` for the same username, whatever the password,
the clearance and the salt drawn, returns false and leaves both files exactly
as they were after the first call. -/
theorem C4_duplicate_user (md5 : Str → Str) (dist dist2 : Nat → Fin 10)
    (username p1 p2 : Str) (c1 c2 : Int) (store : CredStore)
    (hname : '\n' ∉ username)
    (hsalt : endsLine (store.saltFile.getD []) = true)
    (hfirst : (createUser md5 dist username p1 c1 store).1 = true) :
    createUser md5 dist2 username p2 c2 (createUser md5 dist username p1 c1 store).2 =
      (false, (createUser md5 dist username p1 c1 store).2) := by
  have hnew := not_exists_of_created md5 dist username p1 c1 store hfirst
  exact createUser_old md5 dist2 username p2 c2 _
    (userExists_after_create md5 dist username p1 c1 store hname hsalt hnew)

/-- C4, witness: registering "alice" twice on the empty store. -/
theorem C4_duplicate_user_witness :
    createUser toyDigest (fun _ => 5) "alice".toList "password2".toList 3
      (createUser toyDigest (fun _ => 0) "alice".toList "password1".toList 1 emptyStore).2 =
      (false,
        (createUser toyDigest (fun _ => 0) "alice".toList "password1".toList 1 emptyStore).2) :=
  C4_duplicate_user toyDigest (fun _ => 0) (fun _ => 5) "alice".toList "password1".toList
    "password2".toList 1 3 emptyStore (by decide) (by decide) (by decide)

/-- The second registration also succeeds when the salt file does not end with
a newline. -/
theorem duplicate_on_incomplete_line :
    (createUser toyDigest (fun _ => 0) "alice".toList "password1".toList 1
      ⟨some "bob:12345678".toList, some []⟩).1 = true ∧
    (createUser toyDigest (fun _ => 0) "alice".toList "password2".toList 2
      (createUser toyDigest (fun _ => 0) "alice".toList "password1".toList 1
        ⟨some "bob:12345678".toList, some []⟩).2).1 = true := by
  decide

/-! ## Uniqueness of usernames (C6) -/

/-- Uniqueness is also lost, for a valid username, when a line of the salt file
has no delimiter: `userExists` does not see the username that line carries. -/
theorem unique_lost_without_delimiter :
    CredStore.Unique ⟨some "bob\n".toList, some []⟩ ∧
    usernames (createUser toyDigest (fun _ => 0) "bob".toList "password1".toList 2
      ⟨some "bob\n".toList, some []⟩).2.saltFile = ["bob".toList, "bob".toList] := by
  decide

/-- The empty credential store is in standard form and has no two records with
the same username. -/
theorem emptyStore_standard : emptyStore.WF ∧ emptyStore.Unique := by
  refine ⟨⟨rfl, rfl, ?_, ?_⟩, by decide⟩
  · intro l hl
    exact absurd hl (List.not_mem_nil _)
  · intro l hl
    exact absurd hl (List.not_mem_nil _)

theorem isSalt_no_colon (salt : Str) (h : isSalt salt = true) : ':' ∉ salt := by
  simp only [isSalt, Bool.and_eq_true, decide_eq_true_eq, List.all_eq_true] at h
  intro hc
  exact (isdigit_not_special _ (h.2 _ hc)).1 rfl

/-- The lines that are records with username `u`: the username, the delimiter
and a salt. -/
theorem recordUsername_iff (line u : Str) :
    recordUsername line = some u ↔ ∃ salt, isSalt salt = true ∧ line = u ++ ':' :: salt := by
  unfold recordUsername
  constructor
  · intro h
    split_ifs at h with hc
    simp only [Option.some.injEq] at h
    refine ⟨line.drop (line.length - (SALT_LENGTH + 1) + 1), hc.2, ?_⟩
    rw [← h, ← hc.1]
    exact (List.take_append_drop _ _).symm
  · rintro ⟨salt, hsalt, rfl⟩
    have hlen : salt.length = SALT_LENGTH := by
      simp only [isSalt, Bool.and_eq_true, decide_eq_true_eq] at hsalt
      exact hsalt.1
    have hn : (u ++ ':' :: salt).length - (SALT_LENGTH + 1) = u.length := by
      simp only [List.length_append, List.length_cons, hlen]
      omega
    have hd1 : (u ++ ':' :: salt).drop u.length = ':' :: salt := by simp
    have hd2 : (u ++ ':' :: salt).drop (u.length + 1) = salt := drop_prefix u salt
    have ht : (u ++ ':' :: salt).take u.length = u := by simp
    rw [hn, hd1, hd2, ht, if_pos ⟨rfl, hsalt⟩]

/-- C7, counterexample: registering "a:b" on the empty store leaves the salt
file with the single record a:b:00000000, whose username is "a:b"; `userExists`
answers true for "a", although no record has "a" as its username. -/
theorem C7_counterexample :
    (createUser toyDigest (fun _ => 0) "a:b".toList "password1".toList 2 emptyStore).2.saltFile
      = some "a:b:00000000\n".toList ∧
    (getlines "a:b:00000000\n".toList).map recordUsername = [some "a:b".toList] ∧
    userExists "a".toList ⟨some "a:b:00000000\n".toList, some []⟩ = true ∧
    hasRecord "a".toList ⟨some "a:b:00000000\n".toList, some []⟩ = false := by
  decide

/-- The answer of `userExists` is also wrong on a salt file with a line that is
not a record: "bob:xyz" has no salt of eight digits. -/
theorem userExists_on_malformed_line :
    (getlines "bob:xyz\n".toList).map recordUsername = [none] ∧
    userExists "bob".toList ⟨some "bob:xyz\n".toList, some []⟩ = true ∧
    hasRecord "bob".toList ⟨some "bob:xyz\n".toList, some []⟩ = false := by
  decide

/-- C7, amended: in every credential store, `userExists` returns true for every
username of which a record (a line `username:salt` of the salt file, the salt
being `SALT_LENGTH` digits) is present; and when every line of the salt file
that holds a delimiter is a record whose username does not hold the delimiter,
`userExists` returns true, for every username string, if and only if a record
whose username is exactly that string is present. -/
theorem C7_userExists (store : CredStore) (username : Str) :
    (hasRecord username store = true → userExists username store = true) ∧
    ((∀ line ∈ getlines (store.saltFile.getD []), ':' ∈ line → isPlainRecord line = true) →
      (userExists username store = true ↔ hasRecord username store = true)) := by
  have hback : hasRecord username store = true → userExists username store = true := by
    intro h
    simp only [hasRecord, List.any_eq_true, decide_eq_true_eq] at h
    obtain ⟨l, hl, hrec⟩ := h
    obtain ⟨salt, _, hline⟩ := (recordUsername_iff l username).mp hrec
    exact (userExists_true_iff username store).mpr
      ⟨l, hl, (hasUserPrefix_iff username l).mpr ⟨salt, hline⟩⟩
  refine ⟨hback, fun hplain => ⟨?_, hback⟩⟩
  intro h
  obtain ⟨l, hl, hpre⟩ := (userExists_true_iff username store).mp h
  obtain ⟨r, hr⟩ := (hasUserPrefix_iff username l).mp hpre
  have hp := hplain l hl (by rw [hr]; simp)
  unfold isPlainRecord at hp
  cases hrec : recordUsername l with
  | none => rw [hrec] at hp; exact absurd hp (by simp)
  | some name =>
    rw [hrec] at hp
    have hname : ':' ∉ name := by simpa using hp
    obtain ⟨salt, hsalt, hline⟩ := (recordUsername_iff l name).mp hrec
    have hsc := isSalt_no_colon salt hsalt
    have hun : username = name := by
      by_cases hu : ':' ∈ username
      · obtain ⟨t, ht⟩ := line_eq_storedUsername username hu
        have hsplit : storedUsername username ++ ':' :: (t ++ ':' :: r) = name ++ ':' :: salt := by
          rw [← hline, hr]
          conv_rhs => rw [ht]
          simp
        have := (split_unique _ _ _ _ (colon_not_mem_storedUsername username) hname hsplit).2
        exact absurd (this ▸ (by simp : ':' ∈ t ++ ':' :: r)) hsc
      · exact (split_unique _ _ _ _ hu hname (hr ▸ hline)).1
    simp only [hasRecord, List.any_eq_true, decide_eq_true_eq]
    exact ⟨l, hl, hun ▸ hrec⟩

/-- C7, witness: in a store with the records of "alice" and "bob", `userExists`
finds "bob", so a record of "bob" is present. -/
theorem C7_userExists_witness :
    hasRecord "bob".toList ⟨some "alice:00000000\nbob:12345678\n".toList, none⟩ = true :=
  ((C7_userExists ⟨some "alice:00000000\nbob:12345678\n".toList, none⟩ "bob".toList).2
    (by decide)).mp (by decide)

/-! ## Clearances outside the range (C8) -/

/-- C8, counterexample: on the empty store `createUser` with clearance 7
returns true and records the credential with clearance 7. -/
theorem C8_counterexample :
    ¬ ((0 : Int) ≤ 7 ∧ (7 : Int) ≤ 3) ∧
    createUser toyDigest (fun _ => 0) "alice".toList "password1".toList 7 emptyStore =
      (true,
        ⟨some "alice:00000000\n".toList,
         some "alice:42500000000000000000000000000000:7\n".toList⟩) := by
  decide

/-- C8, amended: `createUser` does not check the clearance. Called with any
clearance, also one outside [0,3], it fails, recording nothing, exactly when
the username already exists; otherwise it returns true and appends the records
`username:salt` and `username:digest:clearance` with the clearance as given,
and for a valid username that was in neither file of a store made of complete
lines, `authenticateUser` then yields that clearance. -/
theorem C8_clearance_not_checked (md5 : Str → Str) (dist : Nat → Fin 10) (uninit : Int)
    (username password : Str) (clearance : Int) (store : CredStore) :
    ((createUser md5 dist username password clearance store).1 = false ↔
      userExists username store = true) ∧
    (userExists username store = true →
      (createUser md5 dist username password clearance store).2 = store) ∧
    (userExists username store = false →
      (createUser md5 dist username password clearance store).2 =
        ⟨some (store.saltFile.getD [] ++ (username ++ ':' :: generateSalt dist ++ ['\n'])),
         some (store.shadowFile.getD [] ++
          (username ++ ':' :: (md5 (password ++ generateSalt dist) ++ ':' ::
            to_string clearance) ++ ['\n']))⟩) ∧
    (userExists username store = false → HexDigest md5 → validName username →
      endsLine (store.saltFile.getD []) = true → endsLine (store.shadowFile.getD []) = true →
      username ∉ usernames store.shadowFile → INT_MIN ≤ clearance → clearance ≤ INT_MAX →
      authenticateUser md5 uninit username password
        (createUser md5 dist username password clearance store).2 = some clearance) := by
  refine ⟨?_, ?_, ?_, ?_⟩
  · cases hx : userExists username store with
    | true => simp [createUser_old md5 dist username password clearance store hx]
    | false => simp [createUser_new md5 dist username password clearance store hx]
  · intro hx
    rw [createUser_old md5 dist username password clearance store hx]
  · intro hx
    rw [createUser_new md5 dist username password clearance store hx]
  · intro hnew hmd5 hname hsalt hshadow hfresh hmin hmax
    rw [authenticate_after_create md5 dist uninit username password password clearance store
      hmd5 hname hsalt hshadow hfresh hnew, if_pos rfl]
    rw [(shadow_line_fields uninit username _ clearance hname.1 (hmd5.no_colon _)).2.2
      hmin hmax]

/-- C8, witness: "alice" registers with clearance 7 on the empty store and
authenticates with clearance 7. -/
theorem C8_clearance_not_checked_witness :
    authenticateUser toyDigest 0 "alice".toList "password1".toList
      (createUser toyDigest (fun _ => 0) "alice".toList "password1".toList 7 emptyStore).2
      = some 7 :=
  (C8_clearance_not_checked toyDigest (fun _ => 0) 0 "alice".toList "password1".toList 7
    emptyStore).2.2.2 (by decide) toyDigest_hex (by decide) (by decide)
    (by decide) (by decide) (by decide) (by decide)

/-! ## Saving and loading the file store (C5) -/

theorem scanString_token (ws tok R : Str) (sp : Char) (hws : ∀ c ∈ ws, isspace c = true)
    (htok : isToken tok) (hsp : isspace sp = true) :
    scanString (ws ++ (tok ++ sp :: R)) = some (tok, sp :: R) := by
  obtain ⟨t0, ts, hts⟩ := List.exists_cons_of_ne_nil htok.1
  have ht0 : isspace t0 = false := htok.2 t0 (hts ▸ List.mem_cons_self _ _)
  have hnot : ∀ c ∈ tok, (!isspace c) = true := by
    intro c hc
    simp [htok.2 c hc]
  have htake : (tok ++ sp :: R).takeWhile (fun x => !isspace x) = tok := by
    rw [List.takeWhile_append_of_pos hnot, List.takeWhile_cons]
    simp [hsp]
  have hdrop : (tok ++ sp :: R).dropWhile (fun x => !isspace x) = sp :: R := by
    rw [List.dropWhile_append_of_pos hnot, List.dropWhile_cons]
    simp [hsp]
  unfold scanString
  rw [List.dropWhile_append_of_pos hws]
  have hd : (tok ++ sp :: R).dropWhile isspace = t0 :: (ts ++ sp :: R) := by
    rw [hts, List.cons_append, List.dropWhile_cons, ht0]
    rfl
  rw [hd]
  have hback : t0 :: (ts ++ sp :: R) = tok ++ sp :: R := by rw [hts]; rfl
  simp only [hback, htake, hdrop]

theorem takeWhile_line (content R : Str) (h : '\n' ∉ content) :
    (content ++ '\n' :: R).takeWhile (fun x => x != '\n') = content ∧
    ((content ++ '\n' :: R).dropWhile (fun x => x != '\n')).drop 1 = R := by
  have hall : ∀ c ∈ content, (c != '\n') = true := by
    intro c hc
    have : c ≠ '\n' := fun hx => h (hx ▸ hc)
    simpa using this
  rw [List.takeWhile_append_of_pos hall, List.dropWhile_append_of_pos hall,
    List.takeWhile_cons, List.dropWhile_cons]
  simp

theorem assign_append (k : Str) (e : FileEntry) (acc : FileStore)
    (h : ∀ a ∈ acc, a.1 < k) : assign k e acc = acc ++ [(k, e)] := by
  induction acc with
  | nil => rfl
  | cons p rest ih =>
    obtain ⟨k0, v⟩ := p
    have hk : k0 < k := h (k0, v) (List.mem_cons_self _ _)
    rw [assign, if_neg (lt_asymm hk), if_pos hk,
      ih (fun a ha => h a (List.mem_cons_of_mem _ ha))]
    rfl

theorem saveFileStore_cons (k : Str) (e : FileEntry) (rest : FileStore) :
    saveFileStore ((k, e) :: rest) =
      k ++ ' ' :: (e.owner ++ ' ' :: (to_string e.classification ++
        '\n' :: (e.content ++ '\n' :: saveFileStore rest))) := by
  simp [saveFileStore]

theorem length_le_saveFileStore (m : FileStore) : m.length ≤ (saveFileStore m).length := by
  induction m with
  | nil => simp [saveFileStore]
  | cons p rest ih =>
    obtain ⟨k, e⟩ := p
    rw [saveFileStore_cons]
    simp only [List.length_cons, List.length_append]
    omega

theorem length_dropWhile_le (p : Char → Bool) (s : Str) : (s.dropWhile p).length ≤ s.length :=
  (List.dropWhile_suffix p).length_le

theorem scanString_length (s tok r : Str) (h : scanString s = some (tok, r)) :
    r.length < s.length := by
  unfold scanString at h
  have hle := length_dropWhile_le isspace s
  cases hd : s.dropWhile isspace with
  | nil => rw [hd] at h; simp at h
  | cons c t =>
    rw [hd] at h hle
    simp only [Option.some.injEq, Prod.mk.injEq] at h
    have hc : isspace c = false := by
      have := List.head_dropWhile_not isspace s (by rw [hd]; simp)
      simpa [hd] using this
    rw [← h.2, List.dropWhile_cons]
    simp only [hc, Bool.not_false, if_true]
    have := length_dropWhile_le (fun x => !isspace x) t
    simp only [List.length_cons] at hle
    omega

theorem length_dropWhile_digits (body : Str) (h : body.takeWhile isdigit ≠ []) :
    (body.dropWhile isdigit).length < body.length := by
  cases body with
  | nil => exact absurd rfl h
  | cons x xs =>
    rw [List.takeWhile_cons] at h
    rw [List.dropWhile_cons]
    by_cases hx : isdigit x = true
    · rw [if_pos hx]
      have := length_dropWhile_le isdigit xs
      simp only [List.length_cons]
      omega
    · rw [if_neg hx] at h
      exact absurd rfl h

theorem scanInt_length (s r : Str) (v : Int) (h : scanInt s = .ok v r) :
    r.length < s.length := by
  unfold scanInt at h
  have hle := length_dropWhile_le isspace s
  cases hd : s.dropWhile isspace with
  | nil => rw [hd] at h; exact absurd h (by simp)
  | cons c t =>
    rw [hd] at h hle
    dsimp only at h
    generalize hb : (if c = '-' ∨ c = '+' then t else c :: t) = body at h
    have hbl : body.length ≤ (c :: t).length := by
      rw [← hb]
      split_ifs <;> simp
    by_cases hds : body.takeWhile isdigit = []
    · rw [if_pos hds] at h
      exact absurd h (by simp)
    · rw [if_neg hds] at h
      have hlt := length_dropWhile_digits body hds
      split_ifs at h
      all_goals (cases h; omega)

/-- The result of the loop of `loadFileStore` does not depend on the fuel, once
the fuel exceeds the number of unread characters. -/
theorem loadLoop_fuel (fuel1 : Nat) :
    ∀ (fuel2 : Nat) (stream content : Str) (m : FileStore),
      stream.length < fuel1 → stream.length < fuel2 →
      loadLoop fuel1 stream content m = loadLoop fuel2 stream content m := by
  induction fuel1 with
  | zero => intro _ _ _ _ h; exact absurd h (Nat.not_lt_zero _)
  | succ f1 ih =>
    intro fuel2 stream content m h1 h2
    cases fuel2 with
    | zero => exact absurd h2 (Nat.not_lt_zero _)
    | succ f2 =>
      rw [loadLoop, loadLoop]
      cases hs1 : scanString stream with
      | none => rfl
      | some p1 =>
        obtain ⟨filename, s1⟩ := p1
        have hl1 := scanString_length _ _ _ hs1
        simp only
        cases hs2 : scanString s1 with
        | none => rfl
        | some p2 =>
          obtain ⟨owner, s2⟩ := p2
          have hl2 := scanString_length _ _ _ hs2
          simp only
          cases hs3 : scanInt s2 with
          | untouched => rfl
          | failed v => rfl
          | ok v r =>
            have hl3 := scanInt_length _ _ _ hs3
            cases r with
            | nil =>
              simp only
              exact ih f2 [] content _ (by simp only [List.length_nil]; omega)
                (by simp only [List.length_nil]; omega)
            | cons x s3 =>
              simp only
              have hl4 := length_dropWhile_le (fun x => x != '\n') s3
              have hl5 : ((s3.dropWhile (fun x => x != '\n')).drop 1).length ≤ s3.length := by
                rw [List.length_drop]
                omega
              simp only [List.length_cons] at hl3
              exact ih f2 _ _ _ (by omega) (by omega)

/-- The fuel that `loadFileStore` gives its loop is enough: more fuel gives the
same map. -/
theorem loadFileStore_fuel (text : Str) (fuel : Nat) (m : FileStore)
    (h : text.length < fuel) :
    loadLoop fuel text [] m = loadFileStore (some text) m :=
  loadLoop_fuel fuel (text.length + 1) text [] m h (Nat.lt_succ_self _)

/-- The loop of `loadFileStore` on the text written by `saveFileStore`: the saved
records are added, in order, behind the records already in the map. -/
theorem loadLoop_save (es : FileStore) :
    ∀ (fuel : Nat) (content : Str) (acc : FileStore),
      es.length ≤ fuel →
      (∀ p ∈ es, isToken p.1 ∧ isToken p.2.owner ∧ '\n' ∉ p.2.content ∧
        INT_MIN ≤ p.2.classification ∧ p.2.classification ≤ INT_MAX) →
      es.Pairwise (fun a b => a.1 < b.1) →
      (∀ a ∈ acc, ∀ b ∈ es, a.1 < b.1) →
      loadLoop fuel (saveFileStore es) content acc = acc ++ es := by
  induction es with
  | nil =>
    intro fuel content acc _ _ _ _
    cases fuel with
    | zero => simp [loadLoop]
    | succ fuel => simp [loadLoop, saveFileStore, scanString]
  | cons p rest ih =>
    obtain ⟨k, e⟩ := p
    intro fuel content acc hfuel hok hsorted hacc
    cases fuel with
    | zero => simp at hfuel
    | succ fuel =>
      obtain ⟨hk, ho, hc, hmin, hmax⟩ := hok (k, e) (List.mem_cons_self _ _)
      have hs1 := scanString_token [] k
        (e.owner ++ ' ' :: (to_string e.classification ++
          '\n' :: (e.content ++ '\n' :: saveFileStore rest))) ' ' (by simp) hk rfl
      have hs2 := scanString_token [' '] e.owner
        (to_string e.classification ++ '\n' :: (e.content ++ '\n' :: saveFileStore rest)) ' '
        (by simp [isspace]) ho rfl
      have hs3 := scanInt_to_string [' '] ('\n' :: (e.content ++ '\n' :: saveFileStore rest))
        e.classification (by simp [isspace]) hmin hmax
        (by intro x hx; cases hx; rfl)
      have hline := takeWhile_line e.content (saveFileStore rest) hc
      have hassign : assign k ⟨e.owner, e.classification, e.content⟩ acc = acc ++ [(k, e)] :=
        assign_append k _ acc (fun a ha => hacc a ha (k, e) (List.mem_cons_self _ _))
      have hp := List.pairwise_cons.mp hsorted
      rw [saveFileStore_cons, loadLoop]
      simp only [List.nil_append] at hs1
      simp only [hs1]
      simp only [List.singleton_append] at hs2 hs3
      simp only [hs2]
      rw [List.cons_append] at hs3
      simp only [hs3, hline.1, hline.2, hassign]
      rw [ih fuel e.content (acc ++ [(k, e)]) (by simpa using hfuel)
        (fun q hq => hok q (List.mem_cons_of_mem _ hq)) hp.2]
      · simp
      · intro a ha b hb
        rcases List.mem_append.mp ha with ha | ha
        · exact hacc a ha b (List.mem_cons_of_mem _ hb)
        · rw [List.mem_singleton.mp ha]
          exact hp.1 b hb

/-- C5, counterexample: the store holds one record, for the filename "my file",
whose content "hello" has no newline; the saved text is read back as the
filename "my" and the owner "file", the classification fails to parse, and the
loaded store is empty. -/
theorem C5_counterexample :
    FileStore.WF [("my file".toList, ⟨"bob".toList, 1, "hello".toList⟩)] ∧
    '\n' ∉ "hello".toList ∧
    saveFileStore [("my file".toList, ⟨"bob".toList, 1, "hello".toList⟩)]
      = "my file bob 1\nhello\n".toList ∧
    loadFileStore (some (saveFileStore [("my file".toList, ⟨"bob".toList, 1, "hello".toList⟩)]))
      [] = [] := by
  decide

/-- A record with an empty owner is not read back either: the classification is
taken for the owner. -/
theorem load_empty_owner :
    saveFileStore [("f".toList, ⟨[], 1, "x".toList⟩)] = "f  1\nx\n".toList ∧
    loadFileStore (some (saveFileStore [("f".toList, ⟨[], 1, "x".toList⟩)])) [] = [] := by
  decide

/-- C5, amended: for every file store (a map in key order with classifications
of type `int`) whose contents hold no newline and whose filenames and owners
are non-empty and free of whitespace, loading the text produced by
`saveFileStore` into an empty map yields the store that was saved. -/
theorem C5_save_load (m : FileStore) (hwf : m.WF)
    (hcontent : ∀ p ∈ m, '\n' ∉ p.2.content)
    (hnames : ∀ p ∈ m, isToken p.1 ∧ isToken p.2.owner)
    (hint : ∀ p ∈ m, INT_MIN ≤ p.2.classification ∧ p.2.classification ≤ INT_MAX) :
    loadFileStore (some (saveFileStore m)) [] = m := by
  unfold loadFileStore
  simp only
  rw [loadLoop_save m _ [] [] (Nat.le_succ_of_le (length_le_saveFileStore m))
    (fun p hp => ⟨(hnames p hp).1, (hnames p hp).2, hcontent p hp, hint p hp⟩) hwf
    (fun a ha => absurd ha (List.not_mem_nil _))]
  rfl

/-- C5, witness: a store of two records, one with empty content and a negative
classification. -/
theorem C5_save_load_witness :
    loadFileStore (some (saveFileStore
      [("a.txt".toList, ⟨"CurrentUser".toList, 2, "top secret plans".toList⟩),
       ("b.txt".toList, ⟨"CurrentUser".toList, -1, []⟩)])) []
    = [("a.txt".toList, ⟨"CurrentUser".toList, 2, "top secret plans".toList⟩),
       ("b.txt".toList, ⟨"CurrentUser".toList, -1, []⟩)] :=
  C5_save_load
    [("a.txt".toList, ⟨"CurrentUser".toList, 2, "top secret plans".toList⟩),
     ("b.txt".toList, ⟨"CurrentUser".toList, -1, []⟩)]
    (by decide) (by decide) (by decide) (by decide)

/-! ## Writing (C11) -/

theorem modify_keys (f : Str) (u : FileEntry → FileEntry) (m : FileStore) :
    (modify f u m).map Prod.fst = m.map Prod.fst := by
  induction m with
  | nil => rfl
  | cons p rest ih =>
    obtain ⟨k, v⟩ := p
    unfold modify
    by_cases hk : k = f
    · simp [hk]
    · simp [hk, ih]

/-- The entries under other keys are the same before and after a write through
the iterator of `f`. -/
theorem mem_modify_other (f : Str) (u : FileEntry → FileEntry) (m : FileStore)
    (p : Str × FileEntry) (hp : p.1 ≠ f) : p ∈ modify f u m ↔ p ∈ m := by
  induction m with
  | nil => simp [modify]
  | cons q rest ih =>
    obtain ⟨k, v⟩ := q
    unfold modify
    by_cases hk : k = f
    · rw [if_pos hk]
      have h1 : p ≠ (k, u v) := fun hx => hp (by rw [hx, hk])
      have h2 : p ≠ (k, v) := fun hx => hp (by rw [hx, hk])
      simp [h1, h2]
    · rw [if_neg hk]
      simp [ih]

theorem modify_modify (f : Str) (u v : FileEntry → FileEntry) (m : FileStore) :
    modify f u (modify f v m) = modify f (fun x => u (v x)) m := by
  induction m with
  | nil => rfl
  | cons q rest ih =>
    obtain ⟨k, e⟩ := q
    by_cases hk : k = f
    · simp [modify, hk]
    · simp [modify, hk, ih]

theorem writeFile_granted (m : FileStore) (filename content : Str) (clearance : Int)
    (e : FileEntry) (h : find filename m = some e) (hc : clearance ≥ e.classification) :
    writeFile filename content clearance m =
      (true, modify filename (fun x => { x with content := content }) m) := by
  simp only [writeFile, h]
  rw [if_neg (not_lt.mpr hc)]

theorem appendToFile_granted (m : FileStore) (filename content : Str) (clearance : Int)
    (e : FileEntry) (h : find filename m = some e) (hc : clearance ≥ e.classification) :
    appendToFile filename content clearance m =
      (true, modify filename (fun x => { x with content := x.content ++ content }) m) := by
  simp only [appendToFile, h]
  rw [if_neg (not_lt.mpr hc)]

theorem readFile_granted (m : FileStore) (filename : Str) (clearance : Int)
    (e : FileEntry) (h : find filename m = some e) (hc : clearance ≥ e.classification) :
    readFile filename clearance m = e.content := by
  simp only [readFile, h]
  rw [if_neg (not_lt.mpr hc)]

/-- C11: for a filename present in the store and a clearance at least the
record's classification, `writeFile` returns true; afterwards the record holds
the same owner and classification and exactly the content written, whatever the
content was before, so that `readFile` with the same clearance returns it; and
every other record is unchanged: the lookup of any other filename, the entries
under other filenames and the list of filenames are as before. -/
theorem C11_writeFile (m : FileStore) (filename c : Str) (clearance : Int) (e : FileEntry)
    (h : find filename m = some e) (hc : clearance ≥ e.classification) :
    (writeFile filename c clearance m).1 = true ∧
    find filename (writeFile filename c clearance m).2
      = some ⟨e.owner, e.classification, c⟩ ∧
    readFile filename clearance (writeFile filename c clearance m).2 = c ∧
    (∀ g, g ≠ filename → find g (writeFile filename c clearance m).2 = find g m) ∧
    (∀ p : Str × FileEntry, p.1 ≠ filename →
      (p ∈ (writeFile filename c clearance m).2 ↔ p ∈ m)) ∧
    (writeFile filename c clearance m).2.map Prod.fst = m.map Prod.fst := by
  rw [writeFile_granted m filename c clearance e h hc]
  have hfind : find filename (modify filename (fun x => { x with content := c }) m)
      = some ⟨e.owner, e.classification, c⟩ := by
    rw [find_modify, if_pos rfl, h]
    rfl
  refine ⟨rfl, hfind, ?_, ?_, ?_, modify_keys _ _ _⟩
  · exact readFile_granted _ filename clearance ⟨e.owner, e.classification, c⟩ hfind hc
  · intro g hg
    show find g (modify filename _ m) = find g m
    rw [find_modify, if_neg hg]
  · intro p hp
    exact mem_modify_other filename _ m p hp

/-- C11, witness: writing "new" over "old" in "a" at clearance 2 (classification
1) and reading it back, the record "b" staying as it was. -/
theorem C11_writeFile_witness :
    readFile "a".toList 2 (writeFile "a".toList "new".toList 2
      [("a".toList, ⟨"bob".toList, 1, "old".toList⟩),
       ("b".toList, ⟨"eve".toList, 3, "high".toList⟩)]).2 = "new".toList ∧
    find "b".toList (writeFile "a".toList "new".toList 2
      [("a".toList, ⟨"bob".toList, 1, "old".toList⟩),
       ("b".toList, ⟨"eve".toList, 3, "high".toList⟩)]).2
      = some ⟨"eve".toList, 3, "high".toList⟩ :=
  have hw := C11_writeFile
    [("a".toList, ⟨"bob".toList, 1, "old".toList⟩),
     ("b".toList, ⟨"eve".toList, 3, "high".toList⟩)]
    "a".toList "new".toList 2 ⟨"bob".toList, 1, "old".toList⟩ (by decide) (by decide)
  ⟨hw.2.2.1, (hw.2.2.2.1 "b".toList (by decide)).trans (by decide)⟩

/-! ## Appending (C12) -/

/-- C12: for a filename present in the store with content `old` and a clearance
at least the record's classification, `appendToFile` returns true; afterwards
the record holds the same owner and classification and exactly `old` followed
by the appended string, which `readFile` with the same clearance returns; every
other record is unchanged; and appending `c` and then `c2` gives the same store
as appending `c ++ c2` once. A file just created with a classification not
above the clearance and then appended with `c` reads back as `c`. -/
theorem C12_appendToFile (m : FileStore) (filename c : Str) (clearance : Int) :
    (∀ e, find filename m = some e → clearance ≥ e.classification →
      (appendToFile filename c clearance m).1 = true ∧
      find filename (appendToFile filename c clearance m).2
        = some ⟨e.owner, e.classification, e.content ++ c⟩ ∧
      readFile filename clearance (appendToFile filename c clearance m).2 = e.content ++ c ∧
      (∀ g, g ≠ filename → find g (appendToFile filename c clearance m).2 = find g m) ∧
      (∀ p : Str × FileEntry, p.1 ≠ filename →
        (p ∈ (appendToFile filename c clearance m).2 ↔ p ∈ m)) ∧
      (appendToFile filename c clearance m).2.map Prod.fst = m.map Prod.fst ∧
      (∀ c2, appendToFile filename c2 clearance (appendToFile filename c clearance m).2
        = (true, (appendToFile filename (c ++ c2) clearance m).2))) ∧
    (∀ owner classification, find filename m = none → clearance ≥ classification →
      (createFile filename owner classification m).1 = true ∧
      (appendToFile filename c clearance (createFile filename owner classification m).2).1
        = true ∧
      readFile filename clearance
        (appendToFile filename c clearance (createFile filename owner classification m).2).2
        = c) := by
  constructor
  · intro e h hc
    rw [appendToFile_granted m filename c clearance e h hc]
    have hfind : find filename
        (modify filename (fun x => { x with content := x.content ++ c }) m)
        = some ⟨e.owner, e.classification, e.content ++ c⟩ := by
      rw [find_modify, if_pos rfl, h]
      rfl
    refine ⟨rfl, hfind, ?_, ?_, ?_, modify_keys _ _ _, ?_⟩
    · exact readFile_granted _ filename clearance ⟨e.owner, e.classification, e.content ++ c⟩
        hfind hc
    · intro g hg
      show find g (modify filename _ m) = find g m
      rw [find_modify, if_neg hg]
    · intro p hp
      exact mem_modify_other filename _ m p hp
    · intro c2
      show appendToFile filename c2 clearance (modify filename _ m) = _
      rw [appendToFile_granted _ filename c2 clearance
          ⟨e.owner, e.classification, e.content ++ c⟩ hfind hc,
        appendToFile_granted m filename (c ++ c2) clearance e h hc, modify_modify]
      have hfun : (fun x : FileEntry =>
            ({ ({ x with content := x.content ++ c } : FileEntry) with
                content := ({ x with content := x.content ++ c } : FileEntry).content ++ c2 }
              : FileEntry))
          = (fun x : FileEntry => { x with content := x.content ++ (c ++ c2) }) := by
        funext x
        simp [List.append_assoc]
      rw [hfun]
  · intro owner classification h hc
    have hcreate : createFile filename owner classification m
        = (true, assign filename ⟨owner, classification, []⟩ m) := by
      simp [createFile, h]
    rw [hcreate]
    have hfind : find filename (assign filename ⟨owner, classification, []⟩ m)
        = some ⟨owner, classification, []⟩ := by
      rw [find_assign, if_pos rfl]
    have hgranted := appendToFile_granted _ filename c clearance
      ⟨owner, classification, []⟩ hfind hc
    refine ⟨rfl, ?_, ?_⟩
    · show (appendToFile filename c clearance (assign filename _ m)).1 = true
      rw [hgranted]
    · show readFile filename clearance
        (appendToFile filename c clearance (assign filename _ m)).2 = c
      rw [hgranted]
      have hfind2 : find filename
          (modify filename (fun x => { x with content := x.content ++ c })
            (assign filename ⟨owner, classification, []⟩ m))
          = some ⟨owner, classification, c⟩ := by
        rw [find_modify, if_pos rfl, hfind]
        rfl
      exact readFile_granted _ filename clearance ⟨owner, classification, c⟩ hfind2 hc

/-- C12, witness: appending "lo" to "hel" in "a", and appending "x" to the file
"n" just created, both at clearance 2. -/
theorem C12_appendToFile_witness :
    readFile "a".toList 2 (appendToFile "a".toList "lo".toList 2
      [("a".toList, ⟨"bob".toList, 1, "hel".toList⟩)]).2 = "hello".toList ∧
    readFile "n".toList 2 (appendToFile "n".toList "x".toList 2
      (createFile "n".toList "eve".toList 2
        [("a".toList, ⟨"bob".toList, 1, "hel".toList⟩)]).2).2 = "x".toList :=
  ⟨((C12_appendToFile [("a".toList, ⟨"bob".toList, 1, "hel".toList⟩)]
      "a".toList "lo".toList 2).1 ⟨"bob".toList, 1, "hel".toList⟩
      (by decide) (by decide)).2.2.1,
   ((C12_appendToFile [("a".toList, ⟨"bob".toList, 1, "hel".toList⟩)]
      "n".toList "x".toList 2).2 "eve".toList 2 (by decide) (by decide)).2.2⟩

/-! ## Reads do not depend on content above the clearance (C13) -/

/-- Two stores with the same filenames in the same order whose records agree
pairwise (same owner, same classification, same content unless the
classification is greater than `k`) are in the relation `lowEquiv k`. -/
theorem lowEquiv_of_forall2 (k : Int) (m1 m2 : FileStore)
    (h : List.Forall₂ (fun p q : Str × FileEntry =>
      p.1 = q.1 ∧ agreeAt k (some p.2) (some q.2)) m1 m2) : lowEquiv k m1 m2 := by
  induction h with
  | nil =>
    intro f
    simp [find, agreeAt]
  | @cons p q l1 l2 hpq _ ih =>
    obtain ⟨k1, e1⟩ := p
    obtain ⟨k2, e2⟩ := q
    have hk : k1 = k2 := hpq.1
    subst hk
    intro f
    by_cases hf : k1 = f
    · simp only [find, if_pos hf]
      exact hpq.2
    · simp only [find, if_neg hf]
      exact ih f

/-- C13: if two file stores have the same filenames, owners and classifications
and differ only in the content of records whose classification is greater than
the clearance `k`, then `readFile` at clearance `k` returns the same string on
both stores, for every filename. -/
theorem C13_read_noninterference (k : Int) (m1 m2 : FileStore) (h : lowEquiv k m1 m2)
    (filename : Str) : readFile filename k m1 = readFile filename k m2 := by
  have hf := h filename
  unfold readFile
  cases h1 : find filename m1 with
  | none =>
    cases h2 : find filename m2 with
    | none => rfl
    | some e2 =>
      rw [h1, h2] at hf
      exact absurd hf (by simp [agreeAt])
  | some e1 =>
    cases h2 : find filename m2 with
    | none =>
      rw [h1, h2] at hf
      exact absurd hf (by simp [agreeAt])
    | some e2 =>
      rw [h1, h2] at hf
      obtain ⟨_, hcls, hcontent⟩ := hf
      dsimp only
      rw [← hcls]
      by_cases hk : k < e1.classification
      · rw [if_pos hk, if_pos hk]
      · rw [if_neg hk, if_neg hk]
        exact hcontent (by simpa using hk)

/-- C13, witness: two stores that differ in the content of "top" (classification
3) only; at clearance 2 both reads of "top" return the same string, and so do
both reads of "low", while at clearance 3 the reads of "top" differ. -/
theorem C13_read_noninterference_witness :
    readFile "top".toList 2
        [("low".toList, ⟨"bob".toList, 1, "memo".toList⟩),
         ("top".toList, ⟨"eve".toList, 3, "alpha".toList⟩)]
      = readFile "top".toList 2
        [("low".toList, ⟨"bob".toList, 1, "memo".toList⟩),
         ("top".toList, ⟨"eve".toList, 3, "omega".toList⟩)] ∧
    readFile "top".toList 3
        [("low".toList, ⟨"bob".toList, 1, "memo".toList⟩),
         ("top".toList, ⟨"eve".toList, 3, "alpha".toList⟩)]
      ≠ readFile "top".toList 3
        [("low".toList, ⟨"bob".toList, 1, "memo".toList⟩),
         ("top".toList, ⟨"eve".toList, 3, "omega".toList⟩)] :=
  ⟨C13_read_noninterference 2
      [("low".toList, ⟨"bob".toList, 1, "memo".toList⟩),
       ("top".toList, ⟨"eve".toList, 3, "alpha".toList⟩)]
      [("low".toList, ⟨"bob".toList, 1, "memo".toList⟩),
       ("top".toList, ⟨"eve".toList, 3, "omega".toList⟩)]
      (lowEquiv_of_forall2 _ _ _
        (List.Forall₂.cons ⟨rfl, rfl, rfl, fun _ => rfl⟩
          (List.Forall₂.cons ⟨rfl, rfl, rfl, fun hx => absurd (by decide) hx⟩
            List.Forall₂.nil)))
      "top".toList,
   by decide⟩

end FileSystem
